import Mathlib

/-!
# Verification of the Gdk9 attunement planning engine

A shallow embedding, in Lean 4, of the core planning engine of the Gdk9
repository (`src/gdk9/energy.py`, `src/gdk9/principles.py`,
`src/gdk9/optimize.py`), together with proofs and refutations of the
specification's claims about it.

Modelling conventions:
* Python strings are modelled as `List Char`; iteration over a string is
  iteration over the list.
* Python `dict`s (which preserve insertion order) are modelled as
  association lists: lookup is `List.lookup` (first match), assignment to
  an existing key replaces the value in place, assignment to a fresh key
  appends at the end.
* Python integers are `Int` (or `Nat` where the source value is
  manifestly non-negative, e.g. character energies); Python `%` on a
  positive modulus agrees with `Int.emod` / `Nat.mod`.
* Functions that `raise ValueError(msg)` are modelled in
  `Except String` carrying the source's message string.
* The two `while` loops of `optimize.py` (the BFS queue loop and the
  backpointer walks) are given explicit fuel; the fuel is chosen far above
  the loops' reachable iteration counts (the BFS enqueues each of the nine
  residues at most once, and the backpointer chains strictly decrease a
  bounded measure), so exhaustion is unreachable on the calls the engine
  makes.
-/

namespace Gdk9

/-- `energy.digital_root`: the source first takes `n = abs(int(n))`
(`Int.natAbs` here); `0` maps to `9` (or `0` when `zero_to_nine` is
false); otherwise the result is `9` when `n % 9 == 0` else `n % 9`. -/
def digital_root (n : Int) (zero_to_nine : Bool := true) : Nat :=
  if n.natAbs = 0 then (if zero_to_nine then 9 else 0)
  else if n.natAbs % 9 = 0 then 9 else n.natAbs % 9

/-- `energy.letter_value`: uppercase the character; `A..Z` map to `1..26`,
anything else to its codepoint. -/
def letter_value (ch : Char) : Nat :=
  let c := ch.toUpper
  if 'A' ≤ c ∧ c ≤ 'Z' then c.toNat - 'A'.toNat + 1 else c.toNat

/-- The fields of `principles.Principle` that the energy/planning core
reads. `weights.get(k, 1)` in the source is modelled by storing the three
already-defaulted weight values. Unused presentation fields (`name`,
`description`, `number_mode`, `harmonics`) are omitted. -/
structure Principle where
  symbol_energy : List (Char × Int)
  letter_mode : String
  normalize_zero_to_nine : Bool
  weight_letter : Int
  weight_digit : Int
  weight_symbol : Int
deriving DecidableEq, Repr

/-- `energy.char_energy`: whitespace is 0; letters use `letter_value` or the
codepoint depending on `letter_mode`, digital-rooted, weighted, rooted
again; digits likewise from the digit value; other symbols use the
principle's table or the raw codepoint as fallback. -/
def char_energy (ch : Char) (p : Principle) : Nat :=
  if ch.isWhitespace then 0
  else if ch.isAlpha then
    let base : Int := if p.letter_mode = "a1z26" then letter_value ch else ch.toNat
    let e := digital_root base p.normalize_zero_to_nine
    digital_root ((e : Int) * p.weight_letter) p.normalize_zero_to_nine
  else if ch.isDigit then
    let base : Int := (ch.toNat - '0'.toNat : Nat)
    let e := digital_root base p.normalize_zero_to_nine
    digital_root ((e : Int) * p.weight_digit) p.normalize_zero_to_nine
  else
    match p.symbol_energy.lookup ch with
    | some v =>
      let e := digital_root v p.normalize_zero_to_nine
      digital_root ((e : Int) * p.weight_symbol) p.normalize_zero_to_nine
    | none =>
      let e := digital_root (ch.toNat : Int) p.normalize_zero_to_nine
      digital_root ((e : Int) * p.weight_symbol) p.normalize_zero_to_nine

/-- Total energy of a text: the sum in `energy.string_energy`. -/
def energy_total (text : List Char) (p : Principle) : Nat :=
  (text.map (fun ch => char_energy ch p)).sum

/-- `energy.string_energy`: the total and its digital root. -/
def string_energy (text : List Char) (p : Principle) : Nat × Nat :=
  (energy_total text p, digital_root (energy_total text p) p.normalize_zero_to_nine)

/-- `principles.Principle.default()` when no bundled `data/official.json`
exists (the repository ships none): the "Ninefold Grid" table. -/
def defaultPrinciple : Principle where
  symbol_energy :=
    [('.', 1), (',', 2), ('!', 3), ('?', 4), (':', 5), (';', 6), ('-', 7),
     ('_', 8), ('*', 9), ('#', 5), ('+', 4), ('=', 6), ('@', 8), ('$', 7),
     ('%', 5), ('&', 9), ('/', 3), ('\\', 3), ('(', 2), (')', 2), ('[', 2),
     (']', 2), ('\x7b', 2), ('\x7d', 2), ('<', 1), ('>', 1), ('|', 1),
     ('~', 9), ('^', 8)]
  letter_mode := "a1z26"
  normalize_zero_to_nine := true
  weight_letter := 1
  weight_digit := 1
  weight_symbol := 1

/-- `optimize.Plan`: an insertion plan. -/
structure Plan where
  method : String
  target : Int
  steps : List (Char × Nat)
  total_before : Nat
  dr_before : Nat
  total_after : Nat
  dr_after : Nat
deriving DecidableEq, Repr

/-- `optimize._target_residue`: `(target % 9 - total % 9) % 9` (Python `%`,
i.e. a non-negative representative). -/
def target_residue (total : Nat) (target : Int) : Nat :=
  ((target % 9 - (total % 9 : Nat)) % 9).toNat

/-- Backpointer table of the BFS in `minimal_residue_combo`:
residue ↦ `(prev_residue, symbol_index)`, with `(-1, -1)` at the root. -/
abbrev ParentT := List (Nat × (Int × Int))

/-- The reconstruction loop (`while at != 0`) inside `minimal_residue_combo`:
collect symbol indices walking the parent pointers back to residue 0.  The
collected list is in back-to-front order, exactly like the Python `seq`
before its final `reverse()`.  Fuel bounds the walk; the parent chains the
BFS builds strictly decrease in depth, so `parent.length + 1` fuel always
suffices there. -/
def bfs_reconstruct (parent : ParentT) : Nat → Nat → List Nat
  | _, 0 => []
  | a, fuel + 1 =>
    if a = 0 then []
    else
      match parent.lookup a with
      | none => []
      | some (prev, i) => i.toNat :: bfs_reconstruct parent prev.toNat fuel

/-- The inner `for idx, r in enumerate(residues)` loop of
`minimal_residue_combo`, expanding one dequeued residue `cur` at depth `d`:
returns either the reconstructed index sequence (already reversed, as the
source returns it) or the updated parent/depth/queue state. -/
def bfs_inner (delta_res cur d : Nat) :
    List (Nat × Nat) → ParentT → List (Nat × Nat) → List Nat →
    Sum (List Nat) (ParentT × List (Nat × Nat) × List Nat)
  | [], parent, depth, q => .inr (parent, depth, q)
  | (idx, r) :: rest, parent, depth, q =>
    let nxt := (cur + r) % 9
    if (parent.lookup nxt).isSome then bfs_inner delta_res cur d rest parent depth q
    else
      let parent' := parent ++ [(nxt, ((cur : Int), (idx : Int)))]
      let depth' := depth ++ [(nxt, d + 1)]
      if nxt = delta_res then .inl (bfs_reconstruct parent' nxt (parent'.length + 1)).reverse
      else bfs_inner delta_res cur d rest parent' depth' (q ++ [nxt])

/-- The `while q` loop of `minimal_residue_combo`.  Fuel bounds the number
of dequeues; every residue is enqueued at most once (freshness is checked
before each enqueue), so at most nine dequeues ever happen and the fuel of
`18` used below is unreachable. -/
def bfs_loop (residues : List Nat) (delta_res max_steps : Nat) :
    Nat → List Nat → ParentT → List (Nat × Nat) → Option (List Nat)
  | 0, _, _, _ => none
  | _ + 1, [], _, _ => none
  | fuel + 1, cur :: q, parent, depth =>
    let d := ((depth.lookup cur).getD 0)
    if max_steps ≤ d then bfs_loop residues delta_res max_steps fuel q parent depth
    else
      match bfs_inner delta_res cur d residues.enum parent depth q with
      | .inl seq => some seq
      | .inr (parent', depth', q') =>
        bfs_loop residues delta_res max_steps fuel q' parent' depth'

/-- `optimize.minimal_residue_combo`: BFS over the residues `0..8`, one
allowed-symbol insertion per edge, returning the index sequence of a
shortest combination realizing `delta_res`, or `none`. -/
def minimal_residue_combo (delta_res : Nat) (allowed : List (Char × Nat))
    (max_steps : Nat := 64) : Option (List Nat) :=
  let residues := allowed.map (fun se => se.2 % 9)
  if delta_res = 0 then some []
  else if residues.all (· = 0) then none
  else bfs_loop residues delta_res max_steps 18 [0] [(0, (-1, -1))] [(0, 0)]

/-- `optimize.build_steps_from_seq`: tally the multiplicity of each allowed
index in `seq` and emit `(symbol, count)` in allowed-list order, dropping
unused symbols.  The Python `counts` dict holds exactly the occurrence
counts, so membership/`counts[i]` is `seq.count i`. -/
def build_steps_from_seq (seq : List Nat) (allowed : List (Char × Nat)) :
    List (Char × Nat) :=
  allowed.enum.filterMap (fun ise =>
    let c := seq.count ise.1
    if c ≠ 0 then some (ise.2.1, c) else none)

/-- The default allowed-symbol string `".!?,*+"` of `optimize_attunement`. -/
def default_allowed : List Char := ['.', '!', '?', ',', '*', '+']

/-- The `allowed` list `optimize_attunement` builds: the supplied symbols
(falling back to the default set when absent or empty, as `not
allowed_symbols` does) paired with their energies, zero-energy symbols
dropped.  Factored out of `optimize_attunement` so the proofs can name
it. -/
def attunement_allowed (p : Principle) (allowed_symbols : Option (List Char)) :
    List (Char × Nat) :=
  (match allowed_symbols with
   | none => default_allowed
   | some s => if s = [] then default_allowed else s).filterMap
    (fun s =>
      let e := char_energy s p
      if e = 0 then none else some (s, e))

/-- `optimize.optimize_attunement`. -/
def optimize_attunement (text : List Char) (target : Int) (p : Principle)
    (allowed_symbols : Option (List Char) := none) (method : String := "append")
    (max_steps : Nat := 64) : Except String Plan :=
  let total := energy_total text p
  let dr := digital_root total p.normalize_zero_to_nine
  if ¬(1 ≤ target ∧ target ≤ 9) then .error "Target energy must be 1..9"
  else if (dr : Int) = target then .ok ⟨method, target, [], total, dr, total, dr⟩
  else
    let allowed : List (Char × Nat) := attunement_allowed p allowed_symbols
    if allowed = [] then .error "No valid allowed symbols; provide a non-empty set."
    else
      let delta_res := target_residue total target
      match minimal_residue_combo delta_res allowed max_steps with
      | none => .error "No feasible combination to reach target with given symbols."
      | some seq =>
        let steps := build_steps_from_seq seq allowed
        let added := (steps.map (fun sc => sc.2 * char_energy sc.1 p)).sum
        let new_total := total + added
        let new_dr := digital_root new_total p.normalize_zero_to_nine
        .ok ⟨method, target, steps, total, dr, new_total, new_dr⟩

/-- Flatten `(symbol, count)` steps into the inserted character run, as the
`"".join(sym * count ...)` expressions of `apply_plan` do. -/
def flatten_steps (steps : List (Char × Nat)) : List Char :=
  steps.flatMap (fun sc => List.replicate sc.2 sc.1)

/-- The `for i, ch in enumerate(chars)` loop of the `intersperse` branch of
`apply_plan`, followed by the trailing `while i_ins < n` drain. -/
def intersperse_loop (inserts : List Char) (interval : Int) :
    List (Nat × Char) → Nat → List Char
  | [], i_ins => inserts.drop i_ins
  | (i, ch) :: rest, i_ins =>
    if ((i : Int) + 1) % interval = 0 ∧ i_ins < inserts.length then
      ch :: inserts.getD i_ins ' ' :: intersperse_loop inserts interval rest (i_ins + 1)
    else ch :: intersperse_loop inserts interval rest i_ins

/-- `optimize.apply_plan`.  `spread or max(1, ...)` makes a `spread` of
`none` or `0` fall back to the computed interval. -/
def apply_plan (text : List Char) (plan : Plan) (spread : Option Int := none) :
    Except String (List Char) :=
  if plan.steps = [] then .ok text
  else if plan.method = "append" then .ok (text ++ flatten_steps plan.steps)
  else if plan.method = "prepend" then .ok (flatten_steps plan.steps ++ text)
  else if plan.method = "intersperse" then
    let chars := text
    let inserts := flatten_steps plan.steps
    if chars = [] then .ok inserts
    else
      let n := inserts.length
      if n = 0 then .ok text
      else
        let interval : Int :=
          match spread with
          | some s => if s = 0 then (max 1 (chars.length / (n + 1)) : Nat) else s
          | none => (max 1 (chars.length / (n + 1)) : Nat)
        .ok (intersperse_loop inserts interval chars.enum 0)
  else .error ("Unsupported method: " ++ plan.method)

/-- `optimize.EditOp`: kind is one of `'sub'`, `'del'`, `'ins'` (kept as a
string, as in the source). -/
structure EditOp where
  kind : String
  pos : Int
  ch : Option Char := none
  count : Int := 1
deriving DecidableEq, Repr

/-- `optimize.EditPlan`. -/
structure EditPlan where
  method : String
  target : Int
  ops : List EditOp
  total_before : Nat
  dr_before : Nat
  total_after : Nat
  dr_after : Nat
deriving DecidableEq, Repr

/-- Stable insertion step for a descending-by-`pos` sort: an element is
placed after every element with a `pos` at least as large, matching the
stability of Python's `sorted(..., reverse=True)`. -/
def insertDescByPos (op : EditOp) : List EditOp → List EditOp
  | [] => [op]
  | x :: xs => if x.pos < op.pos then op :: x :: xs else x :: insertDescByPos op xs

/-- Stable descending-by-`pos` sort (`sorted(dels, key=pos, reverse=True)`). -/
def sortDescByPos (l : List EditOp) : List EditOp :=
  l.foldl (fun acc op => insertDescByPos op acc) []

/-- Stable insertion step for an ascending-by-`pos` sort. -/
def insertAscByPos (op : EditOp) : List EditOp → List EditOp
  | [] => [op]
  | x :: xs => if op.pos < x.pos then op :: x :: xs else x :: insertAscByPos op xs

/-- Stable ascending-by-`pos` sort (`sorted(ins, key=pos)`). -/
def sortAscByPos (l : List EditOp) : List EditOp :=
  l.foldl (fun acc op => insertAscByPos op acc) []

/-- `optimize.apply_edit_plan`: deletions (highest position first), then
substitutions in plan order, then insertions (lowest position first); each
operation is silently skipped when its position is out of range for the
buffer as currently mutated. -/
def apply_edit_plan (text : List Char) (plan : EditPlan) : List Char :=
  if plan.ops = [] then text
  else
    let chars := text
    let dels := plan.ops.filter (fun o => o.kind = "del")
    let chars := (sortDescByPos dels).foldl (fun cs o =>
      if 0 ≤ o.pos ∧ o.pos < (cs.length : Int) then cs.eraseIdx o.pos.toNat else cs) chars
    let subs := plan.ops.filter (fun o => o.kind = "sub")
    let chars := subs.foldl (fun cs o =>
      if 0 ≤ o.pos ∧ o.pos < (cs.length : Int) then
        match o.ch with
        | some c => cs.set o.pos.toNat c
        | none => cs
      else cs) chars
    let ins := plan.ops.filter (fun o => o.kind = "ins")
    let chars := (sortAscByPos ins).foldl (fun cs o =>
      let istr : List Char :=
        match o.ch with
        | some c => List.replicate (max 1 o.count).toNat c
        | none => []
      if 0 ≤ o.pos ∧ o.pos ≤ (cs.length : Int) then
        cs.take o.pos.toNat ++ istr ++ cs.drop o.pos.toNat
      else cs) chars
    chars

/-- The per-character option list of `optimize_substitution`: the `seen`
dict keeps the first replacement for each residue delta (catalog
replacements in order, then the case flip), its nonzero entries are
emitted in insertion order, and a deletion option is appended when allowed
and its delta is nonzero.  Each option is `(residue delta, replacement)`
with `none` denoting deletion. -/
def position_options (ch : Char) (p : Principle)
    (subs : Option (List (Char × List Char))) (allow_delete : Bool) :
    List (Nat × Option Char) :=
  let cur_e := char_energy ch p
  let repls : List Char :=
    match subs with
    | none => []
    | some d => (d.lookup ch).getD []
  let seen : List (Nat × Char) :=
    repls.foldl (fun seen repl =>
      let r := (((char_energy repl p : Int) - cur_e) % 9).toNat
      if (seen.lookup r).isSome then seen else seen ++ [(r, repl)]) []
  let seen :=
    if ch.isAlpha then
      let alt := if ch.isLower then ch.toUpper else if ch.isUpper then ch.toLower else ch
      if alt ≠ ch then
        let r := (((char_energy alt p : Int) - cur_e) % 9).toNat
        if (seen.lookup r).isSome then seen else seen ++ [(r, alt)]
      else seen
    else seen
  let opts := (seen.filter (fun rr => rr.1 ≠ 0)).map (fun rr => (rr.1, some rr.2))
  if allow_delete then
    let rdel := ((-(cur_e : Int)) % (9 : Int)).toNat
    if rdel ≠ 0 then opts ++ [(rdel, none)] else opts
  else opts

/-- A DP table entry of `optimize_substitution`:
`(edit count, previous residue, (position, residue delta, replacement))`.
The initial entry at residue 0 is `(0, -1, (-1, 0, none))`. -/
abbrev DpEntry := Nat × Int × (Int × Nat × Option Char)

/-- The DP table: residue ↦ entry, as an insertion-ordered association
list (a Python dict). -/
abbrev BestT := List (Nat × DpEntry)

/-- Dict assignment: replace the value at the first occurrence of the key,
or append a fresh binding. -/
def assocSet (l : BestT) (k : Nat) (v : DpEntry) : BestT :=
  match l with
  | [] => [(k, v)]
  | (k', v') :: rest => if k' = k then (k, v) :: rest else (k', v') :: assocSet rest k v

/-- One tentative table update of the DP: from state residue `res` with
`cnt` edits, apply one option `o` of position `i`; keep only strict
improvements and discard transitions beyond `max_edits`. -/
def dp_write (i res cnt max_edits : Nat) (nb : BestT)
    (o : Nat × Option Char) : BestT :=
  let nr := (res + o.1) % 9
  let nc := cnt + 1
  if max_edits < nc then nb
  else
    match nb.lookup nr with
    | none => nb ++ [(nr, (nc, (res : Int), ((i : Int), o.1, o.2)))]
    | some e0 =>
      if nc < e0.1 then assocSet nb nr (nc, (res : Int), ((i : Int), o.1, o.2))
      else nb

/-- Process one old-table state against every option of position `i`. -/
def dp_step (opts : List (Nat × Option Char)) (i max_edits : Nat)
    (nb : BestT) (st : Nat × DpEntry) : BestT :=
  opts.foldl (dp_write i st.1 st.2.1 max_edits) nb

/-- One round of the DP of `optimize_substitution` (one text position `i`):
`new_best` starts as a copy of `best`; every state of the old `best` is
combined with every option of position `i`, updating `new_best` only on a
strictly better edit count (or a fresh residue) and discarding transitions
beyond `max_edits`. -/
def dp_round (opts : List (Nat × Option Char)) (i : Nat) (max_edits : Nat)
    (best : BestT) : BestT :=
  best.foldl (dp_step opts i max_edits) best

/-- The full DP table of `optimize_substitution` after processing the whole
text: rounds in position order starting from `{0: (0, -1, (-1, 0, none))}`. -/
def dp_table (text : List Char) (p : Principle)
    (subs : Option (List (Char × List Char))) (allow_delete : Bool)
    (max_edits : Nat) : BestT :=
  text.enum.foldl (fun best ic =>
    dp_round (position_options ic.2 p subs allow_delete) ic.1 max_edits best)
    [(0, (0, -1, (-1, 0, none)))]

/-- The backpointer walk (`while cur != 0`) of `optimize_substitution`:
collect operations from the target residue back to residue 0.  The list is
in walk order, i.e. the Python `ops` before `reversed(ops)`.  Fuel bounds
the walk; along table chains the edit counts strictly decrease, so
`max_edits + 2` always suffices on tables the DP builds. -/
def dp_reconstruct (best : BestT) : Nat → Nat → List EditOp
  | _, 0 => []
  | cur, fuel + 1 =>
    if cur = 0 then []
    else
      match best.lookup cur with
      | none => []
      | some (_, prev, pos, _, repl) =>
        (if 0 ≤ pos then
          match repl with
          | none => [⟨"del", pos, none, 1⟩]
          | some c => [⟨"sub", pos, some c, 1⟩]
        else []) ++ dp_reconstruct best prev.toNat fuel

/-- `optimize.optimize_substitution`. -/
def optimize_substitution (text : List Char) (target : Int) (p : Principle)
    (subs : Option (List (Char × List Char)) := none) (allow_delete : Bool := false)
    (allowed_inserts : Option (List Char) := none) (max_edits : Nat := 8) :
    Except String EditPlan :=
  let total := energy_total text p
  let dr := digital_root total p.normalize_zero_to_nine
  if ¬(1 ≤ target ∧ target ≤ 9) then .error "Target energy must be 1..9"
  else if (dr : Int) = target then .ok ⟨"substitute", target, [], total, dr, total, dr⟩
  else
    let best := dp_table text p subs allow_delete max_edits
    let delta_res := target_residue total target
    match best.lookup delta_res with
    | none =>
      match allowed_inserts with
      | some s =>
        if s = [] then .error "No feasible substitution/deletion plan to reach target."
        else
          match optimize_attunement text target p (some s) "append" 64 with
          | .error e => .error e
          | .ok append_plan =>
            let ops : List EditOp :=
              append_plan.steps.map (fun sc => ⟨"ins", (text.length : Int), some sc.1, (sc.2 : Int)⟩)
            let out := apply_edit_plan text ⟨"edit", target, ops, total, dr, total, dr⟩
            let new_total := energy_total out p
            let new_dr := digital_root new_total p.normalize_zero_to_nine
            .ok ⟨"edit", target, ops, total, dr, new_total, new_dr⟩
      | none => .error "No feasible substitution/deletion plan to reach target."
    | some _ =>
      let ops := dp_reconstruct best delta_res (max_edits + 2)
      let out := apply_edit_plan text ⟨"edit", target, ops.reverse, total, dr, total, dr⟩
      let new_total := energy_total out p
      let new_dr := digital_root new_total p.normalize_zero_to_nine
      .ok ⟨"edit", target, ops.reverse, total, dr, new_total, new_dr⟩

/-! ## Arithmetic facts about `digital_root` -/

theorem dr_le_nine (n : Int) (b : Bool) : digital_root n b ≤ 9 := by
  simp only [digital_root]
  split_ifs <;> omega

theorem dr_pos (n : Int) : 1 ≤ digital_root n true := by
  simp only [digital_root]
  split_ifs <;> omega

theorem digital_root_mod (n : Int) (b : Bool) (hn : 0 ≤ n) :
    ((digital_root n b : Int)) % 9 = n % 9 := by
  simp only [digital_root]
  split_ifs <;> omega

theorem digital_root_cast_self (k : Nat) (b : Bool) (h9 : k ≤ 9)
    (hp : b = true → 1 ≤ k) : digital_root (k : Int) b = k := by
  simp only [digital_root, Int.natAbs_ofNat]
  cases b <;> simp_all <;> split_ifs <;> omega

theorem digital_root_idem (n : Int) (b : Bool) :
    digital_root ((digital_root n b : Int)) b = digital_root n b := by
  refine digital_root_cast_self _ b (dr_le_nine n b) (fun hb => ?_)
  subst hb
  exact dr_pos n

theorem dr_eq_nine_of_mod (n : Int) (b : Bool) (hn : 0 ≤ n) (h0 : n ≠ 0)
    (h9 : n % 9 = 0) : digital_root n b = 9 := by
  simp only [digital_root]
  split_ifs <;> omega

theorem dr_eq_mod (n : Int) (b : Bool) (hn : 0 ≤ n) (h9 : n % 9 ≠ 0) :
    (digital_root n b : Int) = n % 9 := by
  simp only [digital_root]
  split_ifs <;> omega

/-- For a target in `1..9` and normalization on, the digital root of a
non-negative total equals the target exactly when they agree mod 9. -/
theorem dr_eq_iff_mod (m : Nat) (t : Int) (h1 : 1 ≤ t) (h9 : t ≤ 9) :
    ((digital_root (m : Int) true : Int) = t) ↔ ((m : Int) % 9 = t % 9) := by
  simp only [digital_root, Int.natAbs_ofNat]
  split_ifs <;> constructor <;> intro h <;> omega

/-- C5, refuting half: `digital_root` is NOT congruent to its input mod 9
for negative inputs: the source takes `abs` first, so
`digital_root(-5) = 5` while `-5 % 9 = 4` (Python and Lean `emod` agree
here). -/
theorem C5_counterexample :
    ¬ (((digital_root (-5) true : Int)) % 9 = (-5 : Int) % 9) := by decide

/-- C5 (amended): for every NON-NEGATIVE integer `n`, `digital_root n` is
congruent to `n` mod 9; idempotence holds for every integer; for
non-negative `n`, `digital_root n = 9` when `n ≠ 0 ∧ n % 9 = 0` and
`digital_root n = n % 9` when `n % 9 ≠ 0`; and `digital_root 0 = 9` under
the default configuration (`zero_to_nine = true`).  The original claim
quantified the congruence and the `n % 9` case over every integer, which
fails at `n = -5` because the source reduces `abs(n)`. -/
theorem C5_digital_root_props (n : Int) (b : Bool) (hn : 0 ≤ n) :
    ((digital_root n b : Int) % 9 = n % 9)
    ∧ (∀ m : Int, digital_root ((digital_root m b : Int)) b = digital_root m b)
    ∧ (n ≠ 0 → n % 9 = 0 → digital_root n b = 9)
    ∧ (n % 9 ≠ 0 → (digital_root n b : Int) = n % 9)
    ∧ digital_root 0 true = 9 :=
  ⟨digital_root_mod n b hn, fun m => digital_root_idem m b,
   fun h0 h9 => dr_eq_nine_of_mod n b hn h0 h9,
   fun h9 => dr_eq_mod n b hn h9, rfl⟩

/-- Witness for C5 at the concrete input `n = 45`. -/
theorem C5_witness :
    ((digital_root (45 : Int) true : Int) % 9 = (45 : Int) % 9)
    ∧ digital_root ((digital_root (-5 : Int) true : Int)) true
        = digital_root (-5 : Int) true :=
  ⟨(C5_digital_root_props 45 true (by decide)).1,
   (C5_digital_root_props 45 true (by decide)).2.1 (-5)⟩

/-! ## C6: already-attuned inputs give empty plans, applied as identity -/

/-- C6: when the checksum's digital root already equals the target (with a
valid target in `1..9`), `optimize_attunement` returns a plan with an
empty step list, `optimize_substitution` returns an `EditPlan` with an
empty op list, and applying any empty plan (`apply_plan` /
`apply_edit_plan`) returns the input text unchanged. -/
theorem C6_empty_plan (text : List Char) (target : Int) (p : Principle)
    (as ai : Option (List Char)) (method : String) (ms me : Nat)
    (subsCat : Option (List (Char × List Char))) (ad : Bool)
    (h1 : 1 ≤ target) (h9 : target ≤ 9)
    (h : ((string_energy text p).2 : Int) = target) :
    optimize_attunement text target p as method ms
      = .ok ⟨method, target, [], (string_energy text p).1, (string_energy text p).2,
             (string_energy text p).1, (string_energy text p).2⟩
    ∧ optimize_substitution text target p subsCat ad ai me
      = .ok ⟨"substitute", target, [], (string_energy text p).1, (string_energy text p).2,
             (string_energy text p).1, (string_energy text p).2⟩
    ∧ (∀ plan : Plan, plan.steps = [] → ∀ spread, apply_plan text plan spread = .ok text)
    ∧ (∀ eplan : EditPlan, eplan.ops = [] → apply_edit_plan text eplan = text) := by
  simp only [string_energy] at h
  refine ⟨?_, ?_, ?_, ?_⟩
  · simp [optimize_attunement, string_energy, h, h1, h9]
  · simp [optimize_substitution, string_energy, h, h1, h9]
  · intro plan hsteps spread
    simp [apply_plan, hsteps]
  · intro eplan hops
    simp [apply_edit_plan, hops]

/-- Witness for C6: `"A"` already has digital root 1. -/
theorem C6_witness :
    optimize_attunement ['A'] 1 defaultPrinciple none "append" 64
      = .ok ⟨"append", 1, [], 1, 1, 1, 1⟩ :=
  (C6_empty_plan ['A'] 1 defaultPrinciple none none "append" 64 8 none false
    (by decide) (by decide) (by decide)).1

/-! ## C7: deletion-at-5 / insertion-at-2 plans are order-insensitive -/

/-- C7: an `EditPlan` holding a deletion at position 5 and an insertion at
position 2 produces the same output from `apply_edit_plan` in either
order, because the applier groups operations by kind (deletions, then
substitutions, then insertions) regardless of list order. -/
theorem C7_order_insensitive (text : List Char) (m : String) (t : Int)
    (cd ci : Option Char) (nd ni : Int) (tb db ta da : Nat) :
    apply_edit_plan text ⟨m, t, [⟨"del", 5, cd, nd⟩, ⟨"ins", 2, ci, ni⟩], tb, db, ta, da⟩
      = apply_edit_plan text ⟨m, t, [⟨"ins", 2, ci, ni⟩, ⟨"del", 5, cd, nd⟩], tb, db, ta, da⟩ := by
  simp [apply_edit_plan, sortDescByPos, sortAscByPos, insertDescByPos, insertAscByPos,
    List.filter]

/-! ## C8: out-of-range targets fail immediately -/

/-- C8: for every target outside `1..9`, both planners fail with the
invalid-target error (`ValueError("Target energy must be 1..9")`) for
every text and configuration. -/
theorem C8_invalid_target (text : List Char) (target : Int) (p : Principle)
    (as ai : Option (List Char)) (method : String) (ms me : Nat)
    (subsCat : Option (List (Char × List Char))) (ad : Bool)
    (h : ¬(1 ≤ target ∧ target ≤ 9)) :
    optimize_attunement text target p as method ms
      = .error "Target energy must be 1..9"
    ∧ optimize_substitution text target p subsCat ad ai me
      = .error "Target energy must be 1..9" := by
  constructor
  · simp [optimize_attunement, h]
  · simp [optimize_substitution, h]

/-- Witness for C8 at target 0. -/
theorem C8_witness :
    optimize_attunement ['A'] 0 defaultPrinciple none "append" 64
      = .error "Target energy must be 1..9" :=
  (C8_invalid_target ['A'] 0 defaultPrinciple none none "append" 64 8 none false
    (by decide)).1

/-! ## C9: out-of-range positions in `apply_edit_plan` -/

/-- C9, refuted: `apply_edit_plan` given a plan whose only operation is a
deletion at position 5 of a 2-character buffer does not fail at all — it
silently skips the operation and returns the buffer unchanged.  No
`InvalidPlanError` path exists in the applier. -/
theorem C9_counterexample :
    apply_edit_plan ['a', 'b'] ⟨"edit", 1, [⟨"del", 5, none, 1⟩], 0, 0, 0, 0⟩
      = ['a', 'b'] := by decide

/-- C9 (amended): an operation whose position is out of range for the
buffer (negative, past its length, or at its length for
delete/substitute) is silently ignored by `apply_edit_plan`: a plan
containing only such an operation returns the input text unchanged, and
no failure is ever produced. -/
theorem apply_single_del (text : List Char) (m : String) (t : Int)
    (tb db ta da : Nat) (pos : Int) (ch : Option Char) (cnt : Int) :
    apply_edit_plan text ⟨m, t, [⟨"del", pos, ch, cnt⟩], tb, db, ta, da⟩
      = if 0 ≤ pos ∧ pos < (text.length : Int) then text.eraseIdx pos.toNat
        else text := by
  simp [apply_edit_plan, List.filter, sortDescByPos, sortAscByPos,
    insertDescByPos, insertAscByPos]

theorem apply_single_sub_oob (text : List Char) (m : String) (t : Int)
    (tb db ta da : Nat) (pos : Int) (ch : Option Char) (cnt : Int)
    (h : ¬(0 ≤ pos ∧ pos < (text.length : Int))) :
    apply_edit_plan text ⟨m, t, [⟨"sub", pos, ch, cnt⟩], tb, db, ta, da⟩ = text := by
  simp [apply_edit_plan, List.filter, sortDescByPos, sortAscByPos,
    insertDescByPos, insertAscByPos, h]

theorem apply_single_ins_oob (text : List Char) (m : String) (t : Int)
    (tb db ta da : Nat) (pos : Int) (ch : Option Char) (cnt : Int)
    (h : ¬(0 ≤ pos ∧ pos ≤ (text.length : Int))) :
    apply_edit_plan text ⟨m, t, [⟨"ins", pos, ch, cnt⟩], tb, db, ta, da⟩ = text := by
  simp [apply_edit_plan, List.filter, sortDescByPos, sortAscByPos,
    insertDescByPos, insertAscByPos, h]

theorem apply_single_other (text : List Char) (m : String) (t : Int)
    (tb db ta da : Nat) (kind : String) (pos : Int) (ch : Option Char) (cnt : Int)
    (h1 : kind ≠ "del") (h2 : kind ≠ "sub") (h3 : kind ≠ "ins") :
    apply_edit_plan text ⟨m, t, [⟨kind, pos, ch, cnt⟩], tb, db, ta, da⟩ = text := by
  simp [apply_edit_plan, List.filter, sortDescByPos, sortAscByPos,
    insertDescByPos, insertAscByPos, h1, h2, h3]

theorem C9_skip_out_of_range (text : List Char) (op : EditOp) (m : String)
    (t : Int) (tb db ta da : Nat)
    (h : op.pos < 0 ∨ (text.length : Int) < op.pos ∨
         ((text.length : Int) ≤ op.pos ∧ (op.kind = "del" ∨ op.kind = "sub"))) :
    apply_edit_plan text ⟨m, t, [op], tb, db, ta, da⟩ = text := by
  obtain ⟨kind, pos, ch, count⟩ := op
  simp only [EditOp.pos, EditOp.kind] at h
  by_cases hd : kind = "del"
  · subst hd
    rw [apply_single_del, if_neg]
    rintro ⟨h0, hlen⟩
    rcases h with h | h | ⟨h, _⟩ <;> omega
  · by_cases hs : kind = "sub"
    · subst hs
      refine apply_single_sub_oob text m t tb db ta da pos ch count ?_
      rintro ⟨h0, hlen⟩
      rcases h with h | h | ⟨h, _⟩ <;> omega
    · by_cases hi : kind = "ins"
      · subst hi
        refine apply_single_ins_oob text m t tb db ta da pos ch count ?_
        rintro ⟨h0, hlen⟩
        rcases h with h | h | ⟨h, hk⟩
        · omega
        · omega
        · rcases hk with hk | hk <;> simp at hk
      · exact apply_single_other text m t tb db ta da kind pos ch count hd hs hi

/-- Witness for C9 (amended): a substitution at position 7 of `"ab"`. -/
theorem C9_witness :
    apply_edit_plan ['a', 'b'] ⟨"edit", 1, [⟨"sub", 7, some 'z', 1⟩], 0, 0, 0, 0⟩
      = ['a', 'b'] :=
  C9_skip_out_of_range ['a', 'b'] ⟨"sub", 7, some 'z', 1⟩ "edit" 1 0 0 0 0
    (Or.inr (Or.inl (by decide)))

/-! ## C2 and C4: the DP reconstruction reads stale backpointers -/

/-- The substitution catalog of the C2/C4 failing input: under the default
principle `'.'↦':'` has residue delta 4, `','↦'|'` delta 8, `','↦'?'`
delta 2. -/
def bugSubs : List (Char × List Char) := [('.', [':']), (',', ['|', '?'])]

/-- The edit plan `optimize_substitution("..,", 5, default, bugSubs)`
actually returns: two substitutions at the same original position 2,
because the backpointer walk reads the final DP table, whose entry for
residue 8 was improved (count 2 → 1, also at position 2) after the entry
for residue 1 recorded it as its predecessor. -/
def bugPlan : EditPlan :=
  ⟨"edit", 5, [⟨"sub", 2, some '|', 1⟩, ⟨"sub", 2, some '?', 1⟩], 4, 4, 6, 6⟩

/-- C2, code bug at the failing input `text=".."`+`","`, `target=5`: the
planner returns `bugPlan` whose declared target is 5, yet recomputing the
checksum of `apply_edit_plan(text, plan)` yields digital root 6 ≠ 5.  The
spec's (verification-only) postcondition is violated because the two
reconstructed operations share position 2, so one substitution overwrites
the other and only one residue delta is realized. -/
theorem C2_code_bug :
    optimize_substitution ['.', '.', ','] 5 defaultPrinciple (some bugSubs) false none 8
      = .ok bugPlan
    ∧ bugPlan.target = 5
    ∧ (string_energy (apply_edit_plan ['.', '.', ','] bugPlan) defaultPrinciple).2 = 6 :=
  ⟨rfl, rfl, rfl⟩

/-- C4, code bug at the same failing input: the DP-produced plan contains
two substitute operations referring to the same original position 2, so
the positions of its substitute/delete operations are not pairwise
distinct. -/
theorem C4_code_bug :
    optimize_substitution ['.', '.', ','] 5 defaultPrinciple (some bugSubs) false none 8
      = .ok bugPlan
    ∧ ¬ (bugPlan.ops.map EditOp.pos).Nodup := by
  refine ⟨rfl, ?_⟩
  decide

/-! ## C10: empty/absent allowed symbols fall back to the default set -/

/-- A principle under which every character of the built-in default symbol
set `".!?,*+"` has zero energy: normalization of zero is off and the
symbol weight is zero. -/
def zeroSymbolPrinciple : Principle :=
  ⟨[], "a1z26", false, 1, 1, 0⟩

/-- C10, refuting the "can only arise when an explicitly supplied
non-empty set consists entirely of zero-energy symbols" part: with
`allowed_symbols` absent, `optimize_attunement` still fails with the
empty-allowed-set error under a principle that gives every default symbol
zero energy. -/
theorem C10_counterexample :
    optimize_attunement ['A'] 2 zeroSymbolPrinciple none "append" 64
      = .error "No valid allowed symbols; provide a non-empty set." := rfl

/-- C10 (amended): an absent or empty `allowed_symbols` is replaced by the
built-in default set `".!?,*+"` before the zero-energy filter, so those
calls behave exactly as if the default set had been supplied; and for any
non-empty supplied set the empty-allowed-set failure occurs exactly when
the target is valid, the text is not already attuned, and every supplied
symbol has zero energy (in particular, with the default set the failure
arises exactly when every default symbol is zero-energy — which the
original claim ruled out). -/
theorem C10_default_fallback (text : List Char) (target : Int) (p : Principle)
    (method : String) (ms : Nat) :
    optimize_attunement text target p none method ms
      = optimize_attunement text target p (some default_allowed) method ms
    ∧ optimize_attunement text target p (some []) method ms
      = optimize_attunement text target p (some default_allowed) method ms
    ∧ ∀ s : List Char, s ≠ [] →
        (optimize_attunement text target p (some s) method ms
            = .error "No valid allowed symbols; provide a non-empty set."
          ↔ (1 ≤ target ∧ target ≤ 9)
            ∧ ((digital_root (energy_total text p) p.normalize_zero_to_nine : Int) ≠ target)
            ∧ ∀ c ∈ s, char_energy c p = 0) := by
  refine ⟨rfl, rfl, ?_⟩
  intro s hs
  have hunf : attunement_allowed p (some s)
      = s.filterMap (fun c =>
          if char_energy c p = 0 then none else some (c, char_energy c p)) := by
    simp [attunement_allowed, hs]
  simp only [optimize_attunement]
  by_cases ht : 1 ≤ target ∧ target ≤ 9
  case neg =>
    rw [if_pos ht]
    constructor
    · intro h
      injection h with h'
      exact absurd h' (by decide)
    · rintro ⟨h1, -⟩
      exact absurd h1 ht
  · by_cases hdr : ((digital_root (energy_total text p) p.normalize_zero_to_nine : Int)) = target
    · simp [ht, hdr]
    · by_cases hall : attunement_allowed p (some s) = []
      · have hz : ∀ c ∈ s, char_energy c p = 0 := by
          intro c hc
          rw [hunf] at hall
          have hn := List.filterMap_eq_nil_iff.mp hall c hc
          by_cases h0 : char_energy c p = 0
          · exact h0
          · simp [h0] at hn
        simpa [ht, hdr, hall] using hz
      · have hnz : ∃ c ∈ s, char_energy c p ≠ 0 := by
          by_contra hno
          push_neg at hno
          refine hall ?_
          rw [hunf]
          exact List.filterMap_eq_nil_iff.mpr (fun c hc => by simp [hno c hc])
        rcases hmrc : minimal_residue_combo (target_residue (energy_total text p) target)
            (attunement_allowed p (some s)) ms
          with _ | seq
        · simpa [ht, hdr, hall, hmrc] using hnz
        · simpa [ht, hdr, hall, hmrc] using hnz

/-- Witness for C10: under `zeroSymbolPrinciple` an explicitly supplied
all-zero-energy set `"."` triggers the empty-allowed-set failure. -/
theorem C10_witness :
    optimize_attunement ['A'] 2 zeroSymbolPrinciple (some ['.']) "append" 64
      = .error "No valid allowed symbols; provide a non-empty set." :=
  ((C10_default_fallback ['A'] 2 zeroSymbolPrinciple "append" 64).2.2 ['.']
    (by decide)).mpr ⟨by decide, by decide, by decide⟩

/-! ## Association-list helpers -/

theorem lookup_append_left {α β : Type} [BEq α] [LawfulBEq α] (l1 l2 : List (α × β)) (a : α)
    (h : (l1.lookup a).isSome) : (l1 ++ l2).lookup a = l1.lookup a := by
  rw [List.lookup_append]
  cases hl : l1.lookup a with
  | none => rw [hl] at h; simp at h
  | some v => simp

theorem lookup_append_fresh {α β : Type} [BEq α] [LawfulBEq α]
    (l : List (α × β)) (k : α) (v : β) (h : l.lookup k = none) :
    (l ++ [(k, v)]).lookup k = some v := by
  rw [List.lookup_append, h]
  have hbeq : (k == k) = true := beq_self_eq_true k
  simp [List.lookup, hbeq]

theorem lookup_append_other {α β : Type} [BEq α] [LawfulBEq α]
    (l : List (α × β)) (k a : α) (v : β) (h : a ≠ k) :
    (l ++ [(k, v)]).lookup a = l.lookup a := by
  rw [List.lookup_append]
  have hbeq : (a == k) = false := beq_eq_false_iff_ne.mpr h
  cases hl : l.lookup a with
  | none => simp [List.lookup, hbeq]
  | some w => simp

/-! ## BFS verification: reachability and invariants -/

/-- Depth assigned to a residue by the BFS depth dict (0 when absent). -/
def dval (depth : List (Nat × Nat)) (x : Nat) : Nat := (depth.lookup x).getD 0

/-- `v` (a residue `< 9`) is realizable by inserting `m` symbols whose
residues are drawn, with repetition, from `residues`: the BFS edge
relation `cur ↦ (cur + r) % 9` composed `m` times from 0. -/
def ReachesIn (residues : List Nat) (m v : Nat) : Prop :=
  ∃ l : List Nat, l.length = m ∧ (∀ r ∈ l, r ∈ residues) ∧ l.sum % 9 = v

/-- The backpointer-table shape invariant: every non-root entry points at
a discovered predecessor one level shallower, through a valid symbol
index realizing the edge `prev ↦ (prev + r) % 9`. -/
def StructInv (residues : List Nat) (parent : ParentT)
    (depth : List (Nat × Nat)) : Prop :=
  ∀ a : Nat, a ≠ 0 → ∀ pv iv : Int, parent.lookup a = some (pv, iv) →
    0 ≤ pv ∧ 0 ≤ iv ∧ iv.toNat < residues.length ∧
    a = (pv.toNat + residues.getD iv.toNat 0) % 9 ∧
    ∃ dp : Nat, depth.lookup pv.toNat = some dp ∧ depth.lookup a = some (dp + 1)

/-- The invariant the BFS loop maintains over its queue, parent table and
depth table. -/
structure BfsInv (residues : List Nat) (max_steps : Nat) (q : List Nat)
    (parent : ParentT) (depth : List (Nat × Nat)) : Prop where
  keys_eq : ∀ a : Nat, (parent.lookup a).isSome ↔ (depth.lookup a).isSome
  root : depth.lookup 0 = some 0
  struct : StructInv residues parent depth
  depth_bound : ∀ a d : Nat, depth.lookup a = some d → d < parent.length
  q_keys : ∀ x ∈ q, (depth.lookup x).isSome
  q_nodup : q.Nodup
  q_sorted : q.Pairwise (fun x y => dval depth x ≤ dval depth y)
  dom_le : ∀ a : Nat, (depth.lookup a).isSome → ∀ x ∈ q, dval depth a ≤ dval depth x + 1
  expanded : ∀ a : Nat, (depth.lookup a).isSome → a ∉ q → dval depth a < max_steps →
    ∀ r ∈ residues, (depth.lookup ((a + r) % 9)).isSome ∧
      dval depth ((a + r) % 9) ≤ dval depth a + 1

/-- Specification of the backpointer walk: starting from a discovered
residue at depth `da`, with enough fuel it returns `da` symbol indices,
all in range, whose residues sum to the starting residue mod 9. -/
theorem bfs_reconstruct_spec (residues : List Nat) (parent : ParentT)
    (depth : List (Nat × Nat))
    (hkeys : ∀ a : Nat, (parent.lookup a).isSome ↔ (depth.lookup a).isSome)
    (hroot : depth.lookup 0 = some 0)
    (hstruct : StructInv residues parent depth) :
    ∀ da a fuel : Nat, depth.lookup a = some da → da < fuel →
      (bfs_reconstruct parent a fuel).length = da ∧
      (∀ j ∈ bfs_reconstruct parent a fuel, j < residues.length) ∧
      ((bfs_reconstruct parent a fuel).map (fun j => residues.getD j 0)).sum % 9
        = a % 9 := by
  intro da
  induction da using Nat.strong_induction_on with
  | _ da ih =>
    intro a fuel ha hfuel
    match fuel, hfuel with
    | fuel + 1, _ =>
      by_cases h0 : a = 0
      · subst h0
        rw [hroot] at ha
        injection ha with ha
        simp [bfs_reconstruct, ← ha]
      · have hps : (parent.lookup a).isSome := (hkeys a).mpr (by simp [ha])
        rcases hpl : parent.lookup a with _ | ⟨pv, iv⟩
        · rw [hpl] at hps; simp at hps
        · obtain ⟨hpv, hiv, hivlen, harel, dp, hdp, hda⟩ := hstruct a h0 pv iv hpl
          rw [ha] at hda
          injection hda with hda
          have hdp_lt : dp < da := by omega
          have hfuel' : dp < fuel := by omega
          obtain ⟨ihlen, ihmem, ihsum⟩ := ih dp hdp_lt pv.toNat fuel hdp hfuel'
          have hrec : bfs_reconstruct parent a (fuel + 1)
              = iv.toNat :: bfs_reconstruct parent pv.toNat fuel := by
            simp [bfs_reconstruct, h0, hpl]
          rw [hrec]
          refine ⟨by simp [ihlen]; omega, ?_, ?_⟩
          · intro j hj
            rcases List.mem_cons.mp hj with rfl | hj
            · exact hivlen
            · exact ihmem j hj
          · simp only [List.map_cons, List.sum_cons]
            have hlt : a < 9 := by omega
            omega

/-- Adding one freshly discovered residue to the parent/depth tables
preserves the table-shape invariants and does not disturb existing
entries. -/
theorem extend_state (residues : List Nat) (parent : ParentT)
    (depth : List (Nat × Nat)) (cur d idx r : Nat)
    (hkeys : ∀ a : Nat, (parent.lookup a).isSome ↔ (depth.lookup a).isSome)
    (hroot : depth.lookup 0 = some 0)
    (hstruct : StructInv residues parent depth)
    (hcur : depth.lookup cur = some d)
    (hfresh : parent.lookup ((cur + r) % 9) = none)
    (hidx : idx < residues.length) (hgetd : residues.getD idx 0 = r) :
    (∀ a : Nat,
        ((parent ++ [((cur + r) % 9, ((cur : Int), (idx : Int)))]).lookup a).isSome
          ↔ ((depth ++ [((cur + r) % 9, d + 1)]).lookup a).isSome)
    ∧ (depth ++ [((cur + r) % 9, d + 1)]).lookup 0 = some 0
    ∧ StructInv residues (parent ++ [((cur + r) % 9, ((cur : Int), (idx : Int)))])
        (depth ++ [((cur + r) % 9, d + 1)])
    ∧ (∀ a : Nat, (depth.lookup a).isSome →
        (depth ++ [((cur + r) % 9, d + 1)]).lookup a = depth.lookup a
        ∧ (parent ++ [((cur + r) % 9, ((cur : Int), (idx : Int)))]).lookup a
            = parent.lookup a)
    ∧ (depth ++ [((cur + r) % 9, d + 1)]).lookup ((cur + r) % 9) = some (d + 1)
    ∧ (∀ a : Nat, ((depth ++ [((cur + r) % 9, d + 1)]).lookup a).isSome →
        (depth.lookup a).isSome ∨ a = (cur + r) % 9) := by
  set nxt := (cur + r) % 9 with hnxt
  have hdfresh : depth.lookup nxt = none := by
    cases hdl : depth.lookup nxt with
    | none => rfl
    | some v =>
      have : (parent.lookup nxt).isSome := (hkeys nxt).mpr (by simp [hdl])
      rw [hfresh] at this
      simp at this
  have hnxt0 : nxt ≠ 0 := by
    intro h0
    rw [h0] at hdfresh
    rw [hroot] at hdfresh
    simp at hdfresh
  have hpres : ∀ a : Nat, (depth.lookup a).isSome →
      (depth ++ [(nxt, d + 1)]).lookup a = depth.lookup a
      ∧ (parent ++ [(nxt, ((cur : Int), (idx : Int)))]).lookup a = parent.lookup a := by
    intro a ha
    refine ⟨lookup_append_left _ _ _ ha, lookup_append_left _ _ _ ((hkeys a).mpr ha)⟩
  have hdnew : (depth ++ [(nxt, d + 1)]).lookup nxt = some (d + 1) :=
    lookup_append_fresh _ _ _ hdfresh
  have hpnew : (parent ++ [(nxt, ((cur : Int), (idx : Int)))]).lookup nxt
      = some ((cur : Int), (idx : Int)) := lookup_append_fresh _ _ _ hfresh
  have hdom : ∀ a : Nat, ((depth ++ [(nxt, d + 1)]).lookup a).isSome →
      (depth.lookup a).isSome ∨ a = nxt := by
    intro a ha
    by_cases he : a = nxt
    · exact Or.inr he
    · rw [lookup_append_other _ _ _ _ he] at ha
      exact Or.inl ha
  refine ⟨?_, ?_, ?_, hpres, hdnew, hdom⟩
  · intro a
    by_cases he : a = nxt
    · subst he
      simp [hdnew, hpnew]
    · rw [lookup_append_other _ _ _ _ he, lookup_append_other _ _ _ _ he]
      exact hkeys a
  · rw [(hpres 0 (by simp [hroot])).1, hroot]
  · intro a ha0 pv iv hpl
    by_cases he : a = nxt
    · subst he
      rw [hpnew] at hpl
      injection hpl with hpl
      injection hpl with h1 h2
      subst h1
      subst h2
      refine ⟨by positivity, by positivity, by simpa using hidx,
        by simp only [Int.toNat_natCast]; rw [hgetd], d, ?_, ?_⟩
      · simpa using (hpres cur (by simp [hcur])).1.trans hcur
      · exact hdnew
    · rw [lookup_append_other _ _ _ _ he] at hpl
      obtain ⟨h1, h2, h3, h4, dp, hdp, hda⟩ := hstruct a ha0 pv iv hpl
      refine ⟨h1, h2, h3, h4, dp, ?_, ?_⟩
      · rw [(hpres pv.toNat (by simp [hdp])).1, hdp]
      · rw [(hpres a (by simp [hda])).1, hda]

/-- Postcondition of a completed (non-returning) inner expansion from
`cur` at depth `d` over pending options `os`: the tables and queue were
extended by a list `ks` of freshly discovered residues, all entered at
depth `d + 1` with backpointers to `cur`, and every pending option's
successor is now discovered at depth at most `d + 1`. -/
def InnerPost (residues : List Nat) (delta_res cur d : Nat)
    (os : List (Nat × Nat)) (parent : ParentT) (depth : List (Nat × Nat))
    (q : List Nat) (parent' : ParentT) (depth' : List (Nat × Nat))
    (q' : List Nat) : Prop :=
  ∃ ks : List Nat,
    q' = q ++ ks ∧
    parent'.length = parent.length + ks.length ∧
    ks.Nodup ∧
    delta_res ∉ ks ∧
    (∀ a : Nat, (depth.lookup a).isSome →
      parent'.lookup a = parent.lookup a ∧ depth'.lookup a = depth.lookup a) ∧
    (∀ x ∈ ks, depth.lookup x = none ∧ depth'.lookup x = some (d + 1)) ∧
    (∀ a : Nat, (depth'.lookup a).isSome → (depth.lookup a).isSome ∨ a ∈ ks) ∧
    (∀ a : Nat, (parent'.lookup a).isSome ↔ (depth'.lookup a).isSome) ∧
    StructInv residues parent' depth' ∧
    (∀ a dd : Nat, depth'.lookup a = some dd → dd < parent'.length) ∧
    (∀ jr : Nat × Nat, jr ∈ os →
      (depth'.lookup ((cur + jr.2) % 9)).isSome
      ∧ dval depth' ((cur + jr.2) % 9) ≤ d + 1)

/-- Full specification of the inner expansion loop `bfs_inner`: from a
well-shaped state it either completes, satisfying `InnerPost`, or returns
a reconstructed sequence of length `d + 1` of in-range symbol indices
whose residues sum to `delta_res` mod 9. -/
theorem bfs_inner_spec (residues : List Nat) (delta_res cur d : Nat) :
    ∀ (os : List (Nat × Nat)) (parent : ParentT) (depth : List (Nat × Nat))
      (q : List Nat),
    (∀ jr ∈ os, jr.1 < residues.length ∧ residues.getD jr.1 0 = jr.2) →
    (∀ a : Nat, (parent.lookup a).isSome ↔ (depth.lookup a).isSome) →
    depth.lookup 0 = some 0 →
    StructInv residues parent depth →
    (∀ a dd : Nat, depth.lookup a = some dd → dd < parent.length) →
    depth.lookup cur = some d →
    (∀ a : Nat, (depth.lookup a).isSome → dval depth a ≤ d + 1) →
    depth.lookup delta_res = none →
    (∀ parent' depth' q',
      bfs_inner delta_res cur d os parent depth q = .inr (parent', depth', q') →
      InnerPost residues delta_res cur d os parent depth q parent' depth' q')
    ∧ (∀ seq, bfs_inner delta_res cur d os parent depth q = .inl seq →
      seq.length = d + 1 ∧ (∀ j ∈ seq, j < residues.length) ∧
      (seq.map (fun j => residues.getD j 0)).sum % 9 = delta_res % 9) := by
  intro os
  induction os with
  | nil =>
    intro parent depth q hos hkeys hroot hstruct hdbound hcur hddom hdelta
    constructor
    · intro parent' depth' q' hres
      simp only [bfs_inner] at hres
      injection hres with hres
      injection hres with h1 hres
      injection hres with h2 h3
      subst h1; subst h2; subst h3
      exact ⟨[], by simp, by simp, List.nodup_nil, by simp,
        fun a _ => ⟨rfl, rfl⟩, by simp, fun a ha => Or.inl ha, hkeys, hstruct,
        hdbound, by simp⟩
    · intro seq hres
      simp [bfs_inner] at hres
  | cons jr rest ih =>
    intro parent depth q hos hkeys hroot hstruct hdbound hcur hddom hdelta
    obtain ⟨idx, r⟩ := jr
    have hosh := hos (idx, r) (List.mem_cons_self _ _)
    have host : ∀ jr ∈ rest, jr.1 < residues.length ∧ residues.getD jr.1 0 = jr.2 :=
      fun jr hjr => hos jr (List.mem_cons_of_mem _ hjr)
    by_cases hmem : ((parent.lookup ((cur + r) % 9)).isSome : Prop)
    · -- already discovered: skip this option
      have hres_eq : bfs_inner delta_res cur d ((idx, r) :: rest) parent depth q
          = bfs_inner delta_res cur d rest parent depth q := by
        simp only [bfs_inner, hmem, if_pos]
      obtain ⟨ihA, ihB⟩ := ih parent depth q host hkeys hroot hstruct hdbound hcur
        hddom hdelta
      constructor
      · intro parent' depth' q' hres
        rw [hres_eq] at hres
        obtain ⟨ks, hq, hlen, hnd, hdel, hpres, hfreshk, hdom, hkeys', hstruct',
          hdbound', hcov⟩ := ihA parent' depth' q' hres
        refine ⟨ks, hq, hlen, hnd, hdel, hpres, hfreshk, hdom, hkeys', hstruct',
          hdbound', ?_⟩
        intro jr hjr
        rcases List.mem_cons.mp hjr with hh | hh
        · subst hh
          have hds : (depth.lookup ((cur + r) % 9)).isSome := (hkeys _).mp hmem
          have hp := hpres _ hds
          refine ⟨by rw [hp.2]; exact hds, ?_⟩
          have : dval depth' ((cur + r) % 9) = dval depth ((cur + r) % 9) := by
            simp [dval, hp.2]
          rw [this]
          exact hddom _ hds
        · exact hcov jr hh
      · intro seq hres
        rw [hres_eq] at hres
        exact ihB seq hres
    · -- fresh successor: extend the tables
      have hfresh : parent.lookup ((cur + r) % 9) = none :=
        Option.not_isSome_iff_eq_none.mp hmem
      obtain ⟨hkeys₁, hroot₁, hstruct₁, hpres₁, hdnew₁, hdom₁⟩ :=
        extend_state residues parent depth cur d idx r hkeys hroot hstruct hcur
          hfresh hosh.1 hosh.2
      set nxt := (cur + r) % 9 with hnxt
      set parent₁ := parent ++ [(nxt, ((cur : Int), (idx : Int)))] with hparent₁
      set depth₁ := depth ++ [(nxt, d + 1)] with hdepth₁
      have hdfresh : depth.lookup nxt = none := by
        cases hdl : depth.lookup nxt with
        | none => rfl
        | some v =>
          have : (parent.lookup nxt).isSome := (hkeys nxt).mpr (by simp [hdl])
          rw [hfresh] at this
          simp at this
      have hdbound₁ : ∀ a dd : Nat, depth₁.lookup a = some dd → dd < parent₁.length := by
        intro a dd ha
        rcases hdom₁ a (by simp [ha]) with hh | hh
        · have := (hpres₁ a hh).1
          rw [this] at ha
          have := hdbound a dd ha
          simp [hparent₁]
          omega
        · subst hh
          rw [hdnew₁] at ha
          injection ha with ha
          have := hdbound cur d hcur
          simp [hparent₁]
          omega
      by_cases hhit : nxt = delta_res
      · -- target found: the loop returns the reconstructed sequence
        have hres_eq : bfs_inner delta_res cur d ((idx, r) :: rest) parent depth q
            = .inl (bfs_reconstruct parent₁ nxt (parent₁.length + 1)).reverse := by
          simp only [bfs_inner]
          rw [← hnxt, if_neg hmem, if_pos hhit, ← hparent₁]
        constructor
        · intro parent' depth' q' hres
          rw [hres_eq] at hres
          exact absurd hres (by simp)
        · intro seq hres
          rw [hres_eq] at hres
          injection hres with hres
          subst hres
          have hda : depth₁.lookup nxt = some (d + 1) := hdnew₁
          have hfuel : d + 1 < parent₁.length + 1 := by
            have := hdbound cur d hcur
            simp [hparent₁]
            omega
          obtain ⟨hl, hm, hsum⟩ := bfs_reconstruct_spec residues parent₁ depth₁
            hkeys₁ hroot₁ hstruct₁ (d + 1) nxt (parent₁.length + 1) hda hfuel
          refine ⟨by simpa using hl, ?_, ?_⟩
          · intro j hj
            exact hm j (List.mem_reverse.mp hj)
          · rw [List.map_reverse, List.sum_reverse, hsum, hhit]
      · -- fresh non-target: enqueue and continue
        have hres_eq : bfs_inner delta_res cur d ((idx, r) :: rest) parent depth q
            = bfs_inner delta_res cur d rest parent₁ depth₁ (q ++ [nxt]) := by
          simp only [bfs_inner, hmem, if_neg, hhit, ← hnxt, ← hparent₁, ← hdepth₁]
          rfl
        have hcur₁ : depth₁.lookup cur = some d := by
          rw [(hpres₁ cur (by simp [hcur])).1]
          exact hcur
        have hddom₁ : ∀ a : Nat, (depth₁.lookup a).isSome → dval depth₁ a ≤ d + 1 := by
          intro a ha
          rcases hdom₁ a ha with hh | hh
          · have hp := (hpres₁ a hh).1
            have := hddom a hh
            simpa [dval, hp] using this
          · subst hh
            simp [dval, hdnew₁]
        have hdelta₁ : depth₁.lookup delta_res = none := by
          rw [hdepth₁, lookup_append_other _ _ _ _ (fun e => hhit e.symm)]
          exact hdelta
        obtain ⟨ihA, ihB⟩ := ih parent₁ depth₁ (q ++ [nxt]) host hkeys₁ hroot₁
          hstruct₁ hdbound₁ hcur₁ hddom₁ hdelta₁
        constructor
        · intro parent' depth' q' hres
          rw [hres_eq] at hres
          obtain ⟨ks₁, hq, hlen, hnd, hdel, hpres, hfreshk, hdom, hkeys', hstruct',
            hdbound', hcov⟩ := ihA parent' depth' q' hres
          refine ⟨nxt :: ks₁, ?_, ?_, ?_, ?_, ?_, ?_, ?_, hkeys', hstruct',
            hdbound', ?_⟩
          · rw [hq]
            simp
          · rw [hlen]
            simp [hparent₁]
            omega
          · refine List.nodup_cons.mpr ⟨?_, hnd⟩
            intro hin
            have := (hfreshk nxt hin).1
            rw [hdnew₁] at this
            simp at this
          · intro hin
            rcases List.mem_cons.mp hin with hh | hh
            · exact hhit hh.symm
            · exact hdel hh
          · intro a ha
            have h₁ := hpres₁ a ha
            have ha₁ : (depth₁.lookup a).isSome := by
              rw [h₁.1]
              exact ha
            have h₂ := hpres a ha₁
            exact ⟨h₂.1.trans h₁.2, h₂.2.trans h₁.1⟩
          · intro x hx
            rcases List.mem_cons.mp hx with hh | hh
            · subst hh
              refine ⟨hdfresh, ?_⟩
              rw [(hpres nxt (by simp [hdnew₁])).2]
              exact hdnew₁
            · have h₂ := hfreshk x hh
              refine ⟨?_, h₂.2⟩
              cases hdl : depth.lookup x with
              | none => rfl
              | some v =>
                have : depth₁.lookup x = depth.lookup x := (hpres₁ x (by simp [hdl])).1
                rw [hdl] at this
                rw [h₂.1] at this
                simp at this
          · intro a ha
            rcases hdom a ha with hh | hh
            · rcases hdom₁ a hh with hh2 | hh2
              · exact Or.inl hh2
              · exact Or.inr (List.mem_cons.mpr (Or.inl hh2))
            · exact Or.inr (List.mem_cons.mpr (Or.inr hh))
          · intro jr hjr
            rcases List.mem_cons.mp hjr with hh | hh
            · subst hh
              show (depth'.lookup nxt).isSome = true ∧ dval depth' nxt ≤ d + 1
              have ha₁ : (depth₁.lookup nxt).isSome := by simp [hdnew₁]
              have h₂ := hpres nxt ha₁
              refine ⟨by rw [h₂.2]; simp [hdnew₁], ?_⟩
              have : dval depth' nxt = d + 1 := by
                simp [dval, h₂.2, hdnew₁]
              omega
            · exact hcov jr hh
        · intro seq hres
          rw [hres_eq] at hres
          exact ihB seq hres

/-- Every pair produced by `List.enum` carries a valid index and the
element at that index. -/
theorem enum_valid (l : List Nat) :
    ∀ jr ∈ l.enum, jr.1 < l.length ∧ l.getD jr.1 0 = jr.2 := by
  rintro ⟨i, x⟩ h
  have hg : l.get? i = some x := List.mk_mem_enum_iff_get?.mp h
  obtain ⟨hlt, hget⟩ := List.get?_eq_some.mp hg
  refine ⟨hlt, ?_⟩
  rw [List.getD_eq_get?, hg]
  rfl

/-- Every element of a list appears in its `enum` at its index. -/
theorem mem_enum_of_mem (l : List Nat) (r : Nat) (h : r ∈ l) :
    ∃ i, (i, r) ∈ l.enum := by
  obtain ⟨n, hn⟩ := List.mem_iff_get?.mp h
  exact ⟨n, List.mk_mem_enum_iff_get?.mpr hn⟩

/-- Expanding the head of the queue preserves the BFS invariant. -/
theorem bfs_inv_preserve (residues : List Nat) (max_steps delta_res : Nat)
    (cur d : Nat) (rest : List Nat) (parent : ParentT)
    (depth : List (Nat × Nat)) (parent' : ParentT) (depth' : List (Nat × Nat))
    (q' : List Nat)
    (hinv : BfsInv residues max_steps (cur :: rest) parent depth)
    (hcur : depth.lookup cur = some d)
    (hpost : InnerPost residues delta_res cur d residues.enum parent depth rest
      parent' depth' q') :
    BfsInv residues max_steps q' parent' depth' := by
  obtain ⟨ks, hq, hlen, hnd, hdel, hpres, hfreshk, hdom, hkeys', hstruct',
    hdbound', hcov⟩ := hpost
  have hcur' : depth'.lookup cur = some d := by
    rw [(hpres cur (by simp [hcur])).2]
    exact hcur
  have hrest_keys : ∀ x ∈ rest, (depth.lookup x).isSome :=
    fun x hx => hinv.q_keys x (List.mem_cons_of_mem _ hx)
  have hrest_pres : ∀ x ∈ rest, depth'.lookup x = depth.lookup x :=
    fun x hx => (hpres x (hrest_keys x hx)).2
  have hrest_dval : ∀ x ∈ rest, dval depth' x = dval depth x := by
    intro x hx
    simp [dval, hrest_pres x hx]
  have hks_dval : ∀ x ∈ ks, dval depth' x = d + 1 := by
    intro x hx
    simp [dval, (hfreshk x hx).2]
  have hd_ge : ∀ x ∈ cur :: rest, d ≤ dval depth x := by
    intro x hx
    rcases List.mem_cons.mp hx with rfl | hx
    · simp [dval, hcur]
    · exact (by simpa [dval, hcur] using
        (List.pairwise_cons.mp hinv.q_sorted).1 x hx)
  have hdom_le_cur : ∀ a : Nat, (depth.lookup a).isSome → dval depth a ≤ d + 1 := by
    intro a ha
    have := hinv.dom_le a ha cur (List.mem_cons_self _ _)
    simpa [dval, hcur] using this
  subst hq
  refine ⟨hkeys', ?_, hstruct', hdbound', ?_, ?_, ?_, ?_, ?_⟩
  · rw [(hpres 0 (by simp [hinv.root])).2]
    exact hinv.root
  · intro x hx
    rcases List.mem_append.mp hx with hx | hx
    · rw [hrest_pres x hx]
      exact hrest_keys x hx
    · simp [(hfreshk x hx).2]
  · refine List.Nodup.append ?_ hnd ?_
    · exact (List.nodup_cons.mp hinv.q_nodup).2
    · intro x hx1 hx2
      have h1 := hrest_keys x hx1
      have h2 := (hfreshk x hx2).1
      rw [h2] at h1
      simp at h1
  · refine List.pairwise_append.mpr ⟨?_, ?_, ?_⟩
    · have := (List.pairwise_cons.mp hinv.q_sorted).2
      refine this.imp_of_mem ?_
      intro x y hx hy hle
      rw [hrest_dval x hx, hrest_dval y hy]
      exact hle
    · refine List.pairwise_of_forall_mem_list ?_
      intro x hx y hy
      rw [hks_dval x hx, hks_dval y hy]
    · intro x hx y hy
      rw [hrest_dval x hx, hks_dval y hy]
      exact le_trans (hdom_le_cur x (hrest_keys x hx)) (by omega)
  · intro a ha x hx
    rcases List.mem_append.mp hx with hx | hx
    · rcases hdom a ha with haold | haks
      · rw [hrest_dval x hx]
        have := hinv.dom_le a haold x (List.mem_cons_of_mem _ hx)
        have heq : dval depth' a = dval depth a := by
          simp [dval, (hpres a haold).2]
        rw [heq]
        exact this
      · rw [hks_dval a haks, hrest_dval x hx]
        have := hd_ge x (List.mem_cons_of_mem _ hx)
        omega
    · rw [hks_dval x hx]
      rcases hdom a ha with haold | haks
      · have heq : dval depth' a = dval depth a := by
          simp [dval, (hpres a haold).2]
        rw [heq]
        have := hdom_le_cur a haold
        omega
      · rw [hks_dval a haks]
        omega
  · intro a ha hanq hams r hr
    rcases hdom a ha with haold | haks
    · have heq : dval depth' a = dval depth a := by
        simp [dval, (hpres a haold).2]
      by_cases hacur : a = cur
      · subst hacur
        obtain ⟨i, hi⟩ := mem_enum_of_mem residues r hr
        have := hcov (i, r) hi
        rw [heq] at hams ⊢
        have hda : dval depth a = d := by simp [dval, hcur]
        rw [hda]
        exact this
      · have hanRest : a ∉ rest := fun hc => hanq (List.mem_append.mpr (Or.inl hc))
        have hanQ : a ∉ cur :: rest := by
          intro hc
          rcases List.mem_cons.mp hc with hc | hc
          · exact hacur hc
          · exact hanRest hc
        rw [heq] at hams
        obtain ⟨hsucc, hdle⟩ := hinv.expanded a haold hanQ hams r hr
        have hsucc' : depth'.lookup ((a + r) % 9) = depth.lookup ((a + r) % 9) :=
          (hpres _ hsucc).2
        refine ⟨by rw [hsucc']; exact hsucc, ?_⟩
        have : dval depth' ((a + r) % 9) = dval depth ((a + r) % 9) := by
          simp [dval, hsucc']
        rw [this, heq]
        exact hdle
    · exact absurd (List.mem_append.mpr (Or.inr haks)) hanq

/-- Completeness at a pop: when the queue head `cur` sits at depth
`d < max_steps`, every residue reachable in at most `d` steps has already
been discovered, at a depth bounded by its path length.  This is the heart
of the BFS optimality argument: discovery happens in depth order. -/
theorem reach_discovered (residues : List Nat) (max_steps : Nat)
    (cur : Nat) (rest : List Nat) (parent : ParentT) (depth : List (Nat × Nat))
    (d : Nat)
    (hinv : BfsInv residues max_steps (cur :: rest) parent depth)
    (hcur : depth.lookup cur = some d) (hdms : d < max_steps) :
    ∀ m : Nat, m ≤ d → ∀ v : Nat, ReachesIn residues m v →
      ∃ dv : Nat, dv ≤ m ∧ depth.lookup v = some dv := by
  have hd_ge : ∀ x ∈ cur :: rest, d ≤ dval depth x := by
    intro x hx
    rcases List.mem_cons.mp hx with rfl | hx
    · simp [dval, hcur]
    · exact (by simpa [dval, hcur] using
        (List.pairwise_cons.mp hinv.q_sorted).1 x hx)
  intro m
  induction m with
  | zero =>
    intro _ v hv
    obtain ⟨l, hlen, _, hsum⟩ := hv
    rw [List.length_eq_zero] at hlen
    subst hlen
    simp at hsum
    exact ⟨0, le_refl 0, by rw [← hsum]; exact hinv.root⟩
  | succ m ihm =>
    intro hle v hv
    obtain ⟨l, hlen, hmem, hsum⟩ := hv
    rcases List.eq_nil_or_concat l with rfl | ⟨l', r, rfl⟩
    · simp at hlen
    · rw [List.concat_eq_append] at hlen hmem hsum
      have hlen' : l'.length = m := by simpa using hlen
      have hprefix : ReachesIn residues m (l'.sum % 9) :=
        ⟨l', hlen', fun x hx => hmem x (List.mem_append.mpr (Or.inl hx)), rfl⟩
      obtain ⟨dv', hdv'le, hdv'⟩ := ihm (by omega) (l'.sum % 9) hprefix
      have hvsum : v = ((l'.sum % 9) + r) % 9 := by
        rw [← hsum, List.sum_append]
        simp only [List.sum_cons, List.sum_nil, add_zero]
        omega
      set u := l'.sum % 9 with hu
      have hus : (depth.lookup u).isSome := by simp [hdv']
      have hu_dval : dval depth u = dv' := by simp [dval, hdv']
      have hu_nq : u ∉ cur :: rest := by
        intro hq
        have := hd_ge u hq
        rw [hu_dval] at this
        omega
      have hums : dval depth u < max_steps := by
        rw [hu_dval]
        omega
      obtain ⟨hsucc, hsle⟩ := hinv.expanded u hus hu_nq hums r
        (hmem r (List.mem_append.mpr (Or.inr (List.mem_singleton_self r))))
      obtain ⟨dv, hdv⟩ := Option.isSome_iff_exists.mp hsucc
      refine ⟨dv, ?_, by rw [hvsum]; exact hdv⟩
      have : dval depth ((u + r) % 9) = dv := by simp [dval, hdv]
      rw [this] at hsle
      rw [hu_dval] at hsle
      omega

/-- Full specification of the BFS queue loop: a returned index sequence
is valid, realizes `delta_res` mod 9, and is as short as any residue
multiset realizing `delta_res`. -/
theorem bfs_loop_spec (residues : List Nat) (delta_res max_steps : Nat) :
    ∀ (fuel : Nat) (q : List Nat) (parent : ParentT) (depth : List (Nat × Nat)),
    BfsInv residues max_steps q parent depth →
    depth.lookup delta_res = none →
    ∀ seq, bfs_loop residues delta_res max_steps fuel q parent depth = some seq →
      (∀ j ∈ seq, j < residues.length) ∧
      (seq.map (fun j => residues.getD j 0)).sum % 9 = delta_res % 9 ∧
      (∀ m, ReachesIn residues m delta_res → seq.length ≤ m) := by
  intro fuel
  induction fuel with
  | zero =>
    intro q parent depth _ _ seq hres
    simp [bfs_loop] at hres
  | succ fuel ihf =>
    intro q parent depth hinv hdelta seq hres
    match q with
    | [] => simp [bfs_loop] at hres
    | cur :: rest =>
      have hcs : (depth.lookup cur).isSome :=
        hinv.q_keys cur (List.mem_cons_self _ _)
      obtain ⟨d, hcur⟩ := Option.isSome_iff_exists.mp hcs
      simp only [bfs_loop, hcur, Option.getD_some] at hres
      by_cases hms : max_steps ≤ d
      · rw [if_pos hms] at hres
        have hinv' : BfsInv residues max_steps rest parent depth := by
          obtain ⟨hkeys, hroot, hstruct, hdbound, hqk, hqn, hqs, hdl, hexp⟩ := hinv
          refine ⟨hkeys, hroot, hstruct, hdbound, ?_, ?_, ?_, ?_, ?_⟩
          · exact fun x hx => hqk x (List.mem_cons_of_mem _ hx)
          · exact (List.nodup_cons.mp hqn).2
          · exact (List.pairwise_cons.mp hqs).2
          · exact fun a ha x hx => hdl a ha x (List.mem_cons_of_mem _ hx)
          · intro a ha hanq hams r hr
            by_cases hac : a = cur
            · subst hac
              have : dval depth a = d := by simp [dval, hcur]
              rw [this] at hams
              omega
            · refine hexp a ha ?_ hams r hr
              intro hc
              rcases List.mem_cons.mp hc with hc | hc
              · exact hac hc
              · exact hanq hc
        exact ihf rest parent depth hinv' hdelta seq hres
      · rw [if_neg hms] at hres
        push_neg at hms
        have hos : ∀ jr ∈ residues.enum,
            jr.1 < residues.length ∧ residues.getD jr.1 0 = jr.2 :=
          enum_valid residues
        have hddom : ∀ a : Nat, (depth.lookup a).isSome → dval depth a ≤ d + 1 := by
          intro a ha
          have := hinv.dom_le a ha cur (List.mem_cons_self _ _)
          simpa [dval, hcur] using this
        obtain ⟨specA, specB⟩ := bfs_inner_spec residues delta_res cur d
          residues.enum parent depth rest hos hinv.keys_eq hinv.root hinv.struct
          hinv.depth_bound hcur hddom hdelta
        cases hinner : bfs_inner delta_res cur d residues.enum parent depth rest with
        | inl s =>
          rw [hinner] at hres
          injection hres with hres
          subst hres
          obtain ⟨hslen, hsval, hssum⟩ := specB s hinner
          refine ⟨hsval, hssum, ?_⟩
          intro m hm
          by_contra hlt
          push_neg at hlt
          rw [hslen] at hlt
          obtain ⟨dv, hdvle, hdv⟩ := reach_discovered residues max_steps cur rest
            parent depth d hinv hcur hms m (by omega) delta_res hm
          rw [hdelta] at hdv
          simp at hdv
        | inr st =>
          obtain ⟨parent', depth', q'⟩ := st
          rw [hinner] at hres
          have hpost := specA parent' depth' q' hinner
          have hinv' := bfs_inv_preserve residues max_steps delta_res cur d rest
            parent depth parent' depth' q' hinv hcur hpost
          have hdelta' : depth'.lookup delta_res = none := by
            obtain ⟨ks, _, _, _, hdel, _, hfreshk, hdom, _, _, _, _⟩ := hpost
            cases hdl : depth'.lookup delta_res with
            | none => rfl
            | some v =>
              rcases hdom delta_res (by simp [hdl]) with hh | hh
              · rw [hdelta] at hh
                simp at hh
              · exact absurd hh hdel
          exact ihf q' parent' depth' hinv' hdelta' seq hres

theorem lookup_singleton {β : Type} (k a : Nat) (v : β) :
    List.lookup a [(k, v)] = if k = a then some v else none := by
  by_cases h : k = a
  · subst h
    simp [List.lookup]
  · have hbeq : (a == k) = false := beq_eq_false_iff_ne.mpr (fun e => h e.symm)
    simp [List.lookup, hbeq, h]

/-- The specification of `minimal_residue_combo`: a returned index
sequence is valid for `allowed`, its residues realize `delta_res`, and it
is as short as any residue multiset realizing `delta_res`. -/
theorem minimal_residue_combo_spec (delta_res : Nat) (allowed : List (Char × Nat))
    (ms : Nat) (hd9 : delta_res < 9) :
    ∀ seq, minimal_residue_combo delta_res allowed ms = some seq →
      (∀ j ∈ seq, j < allowed.length) ∧
      ((seq.map (fun j => (allowed.map (fun se => se.2 % 9)).getD j 0)).sum % 9
        = delta_res) ∧
      ReachesIn (allowed.map (fun se => se.2 % 9)) seq.length delta_res ∧
      (∀ m, ReachesIn (allowed.map (fun se => se.2 % 9)) m delta_res →
        seq.length ≤ m) := by
  intro seq hres
  simp only [minimal_residue_combo] at hres
  by_cases h0 : delta_res = 0
  · rw [if_pos h0] at hres
    injection hres with hres
    subst hres
    subst h0
    exact ⟨by simp, by simp, ⟨[], rfl, by simp, by simp⟩, fun m _ => by simp⟩
  · rw [if_neg h0] at hres
    by_cases hall : (allowed.map (fun se => se.2 % 9)).all (· = 0)
    · rw [if_pos hall] at hres
      simp at hres
    · rw [if_neg hall] at hres
      have hinv : BfsInv (allowed.map (fun se => se.2 % 9)) ms [0]
          [(0, (-1, -1))] [(0, 0)] := by
        have hkeys : ∀ a : Nat,
            ((([(0, ((-1 : Int), (-1 : Int)))] : ParentT).lookup a).isSome)
              ↔ ((([((0 : Nat), (0 : Nat))] : List (Nat × Nat)).lookup a).isSome) := by
          intro a
          rw [lookup_singleton, lookup_singleton]
          by_cases h : (0 : Nat) = a <;> simp [h]
        refine ⟨hkeys, by rw [lookup_singleton]; simp, ?_, ?_, ?_, ?_, ?_, ?_, ?_⟩
        · intro a ha pv iv hpl
          rw [lookup_singleton] at hpl
          rw [if_neg (fun e => ha e.symm)] at hpl
          exact absurd hpl (by simp)
        · intro a dd hdd
          rw [lookup_singleton] at hdd
          by_cases h : (0 : Nat) = a
          · rw [if_pos h] at hdd
            injection hdd with hdd
            simp [← hdd]
          · rw [if_neg h] at hdd
            exact absurd hdd (by simp)
        · intro x hx
          rw [List.mem_singleton] at hx
          subst hx
          rw [lookup_singleton]
          simp
        · exact List.nodup_singleton 0
        · exact List.pairwise_singleton _ 0
        · intro a ha x hx
          have ha0 : a = 0 := by
            by_cases h : a = 0
            · exact h
            · rw [lookup_singleton, if_neg (fun e => h e.symm)] at ha
              simp at ha
          subst ha0
          have hz : dval [((0 : Nat), (0 : Nat))] 0 = 0 := by
            simp only [dval]
            rw [lookup_singleton]
            simp
          rw [hz]
          omega
        · intro a ha hanq hams r hr
          exfalso
          refine hanq ?_
          rw [List.mem_singleton]
          by_cases h : a = 0
          · exact h
          · exfalso
            rw [lookup_singleton, if_neg (fun e => h e.symm)] at ha
            simp at ha
      have hdelta : (([((0 : Nat), (0 : Nat))] : List (Nat × Nat)).lookup
          delta_res) = none := by
        rw [lookup_singleton, if_neg (fun e => h0 e.symm)]
      obtain ⟨hval, hsum, hmin⟩ := bfs_loop_spec (allowed.map (fun se => se.2 % 9))
        delta_res ms 18 [0] [(0, (-1, -1))] [(0, 0)] hinv hdelta seq hres
      refine ⟨?_, ?_, ?_, hmin⟩
      · intro j hj
        have := hval j hj
        simpa using this
      · rw [hsum, Nat.mod_eq_of_lt hd9]
      · refine ⟨seq.map (fun j => (allowed.map (fun se => se.2 % 9)).getD j 0),
          by simp, ?_, ?_⟩
        · intro r hr
          obtain ⟨j, hj, rfl⟩ := List.mem_map.mp hr
          have hjl : j < (allowed.map (fun se => se.2 % 9)).length := by
            simpa using hval j hj
          rw [List.getD_eq_getElem _ 0 hjl]
          exact List.getElem_mem hjl
        · rw [hsum, Nat.mod_eq_of_lt hd9]

/-! ## Energy bookkeeping -/

theorem energy_total_append (a b : List Char) (p : Principle) :
    energy_total (a ++ b) p = energy_total a p + energy_total b p := by
  simp [energy_total]

theorem energy_total_nil (p : Principle) : energy_total [] p = 0 := rfl

/-- The energy of a flattened step list is the weighted sum computed by
`optimize_attunement` as `added`. -/
theorem energy_flatten (steps : List (Char × Nat)) (p : Principle) :
    energy_total (flatten_steps steps) p
      = (steps.map (fun sc => sc.2 * char_energy sc.1 p)).sum := by
  induction steps with
  | nil => rfl
  | cons sc rest ih =>
    simp only [flatten_steps, List.flatMap_cons, List.map_cons, List.sum_cons]
    rw [energy_total_append]
    have hrep : energy_total (List.replicate sc.2 sc.1) p
        = sc.2 * char_energy sc.1 p := by
      simp [energy_total, List.map_replicate, List.sum_replicate, smul_eq_mul]
    rw [hrep, ← ih]
    rfl

/-- The interspersal loop emits every buffer character and every insert
(from index `k` on) exactly once, so energies add. -/
theorem intersperse_energy (inserts : List Char) (interval : Int) (p : Principle) :
    ∀ (l : List (Nat × Char)) (k : Nat),
    energy_total (intersperse_loop inserts interval l k) p
      = energy_total (l.map Prod.snd) p + energy_total (inserts.drop k) p := by
  intro l
  induction l with
  | nil =>
    intro k
    simp [intersperse_loop, energy_total]
  | cons ic rest ih =>
    intro k
    obtain ⟨i, ch⟩ := ic
    simp only [intersperse_loop]
    by_cases hc : ((i : Int) + 1) % interval = 0 ∧ k < inserts.length
    · rw [if_pos hc]
      have hdrop : inserts.drop k = inserts.getD k ' ' :: inserts.drop (k + 1) := by
        rw [List.getD_eq_getElem _ _ hc.2]
        exact List.drop_eq_getElem_cons hc.2
      rw [hdrop]
      have h1 : energy_total (ch :: inserts.getD k ' '
            :: intersperse_loop inserts interval rest (k + 1)) p
          = char_energy ch p + char_energy (inserts.getD k ' ') p
            + energy_total (intersperse_loop inserts interval rest (k + 1)) p := by
        simp [energy_total]
        omega
      rw [h1, ih (k + 1)]
      have h2 : energy_total ((((i, ch) : Nat × Char) :: rest).map Prod.snd) p
          = char_energy ch p + energy_total (rest.map Prod.snd) p := by
        simp [energy_total]
      rw [h2]
      have h3 : energy_total (inserts.getD k ' ' :: inserts.drop (k + 1)) p
          = char_energy (inserts.getD k ' ') p
            + energy_total (inserts.drop (k + 1)) p := by
        simp [energy_total]
      rw [h3]
      omega
    · rw [if_neg hc]
      have h1 : energy_total (ch :: intersperse_loop inserts interval rest k) p
          = char_energy ch p
            + energy_total (intersperse_loop inserts interval rest k) p := by
        simp [energy_total]
      rw [h1, ih k]
      have h2 : energy_total ((((i, ch) : Nat × Char) :: rest).map Prod.snd) p
          = char_energy ch p + energy_total (rest.map Prod.snd) p := by
        simp [energy_total]
      rw [h2]
      omega

/-- Whenever `apply_plan` succeeds, the output's total energy is the
input's plus the energy of the flattened step list — insertion position
never affects the checksum. -/
theorem apply_plan_energy (text : List Char) (plan : Plan) (spread : Option Int)
    (p : Principle) (out : List Char)
    (h : apply_plan text plan spread = .ok out) :
    energy_total out p = energy_total text p
      + energy_total (flatten_steps plan.steps) p := by
  simp only [apply_plan] at h
  by_cases hsteps : plan.steps = []
  · rw [if_pos hsteps] at h
    injection h with h
    subst h
    simp [hsteps, flatten_steps, energy_total]
  · rw [if_neg hsteps] at h
    by_cases hm1 : plan.method = "append"
    · rw [if_pos hm1] at h
      injection h with h
      subst h
      rw [energy_total_append]
    · rw [if_neg hm1] at h
      by_cases hm2 : plan.method = "prepend"
      · rw [if_pos hm2] at h
        injection h with h
        subst h
        rw [energy_total_append]
        omega
      · rw [if_neg hm2] at h
        by_cases hm3 : plan.method = "intersperse"
        · rw [if_pos hm3] at h
          by_cases htext : text = []
          · rw [if_pos htext] at h
            injection h with h
            subst h
            subst htext
            simp [energy_total]
          · rw [if_neg htext] at h
            by_cases hn : (flatten_steps plan.steps).length = 0
            · rw [if_pos hn] at h
              injection h with h
              subst h
              rw [List.length_eq_zero] at hn
              rw [hn]
              simp [energy_total]
            · rw [if_neg hn] at h
              injection h with h
              subst h
              rw [intersperse_energy]
              rw [List.enum_map_snd]
              simp
        · rw [if_neg hm3] at h
          exact absurd h (by simp)

/-! ## Counting: step tallies versus the raw index sequence -/

theorem sum_map_add {α : Type} (l : List α) (f g : α → Nat) :
    (l.map (fun x => f x + g x)).sum = (l.map f).sum + (l.map g).sum := by
  induction l with
  | nil => rfl
  | cons a rest ih =>
    simp [ih]
    omega

theorem enumFrom_fst_ge {α : Type} (l : List α) :
    ∀ (n : Nat) (ia : Nat × α), ia ∈ l.enumFrom n → n ≤ ia.1 := by
  induction l with
  | nil => intro n ia h; simp at h
  | cons a rest ih =>
    intro n ia h
    rcases List.mem_cons.mp h with rfl | h
    · exact le_refl n
    · exact le_trans (Nat.le_succ n) (ih (n + 1) ia h)

theorem enumFrom_ite_sum {α : Type} (l : List α) (dflt : α) (f : α → Nat) :
    ∀ (n j : Nat), j < l.length →
    ((l.enumFrom n).map (fun ia => (if ia.1 = n + j then 1 else 0) * f ia.2)).sum
      = f (l.getD j dflt) := by
  induction l with
  | nil => intro n j h; simp at h
  | cons a rest ih =>
    intro n j hj
    simp only [List.enumFrom, List.map_cons, List.sum_cons]
    cases j with
    | zero =>
      have htail : ((rest.enumFrom (n + 1)).map
          (fun ia => (if ia.1 = n + 0 then 1 else 0) * f ia.2)).sum = 0 := by
        apply List.sum_eq_zero
        intro x hx
        obtain ⟨ia, hia, rfl⟩ := List.mem_map.mp hx
        have := enumFrom_fst_ge rest (n + 1) ia hia
        rw [if_neg (by omega)]
        simp
      rw [htail]
      simp
    | succ j' =>
      have hhead : (if n = n + (j' + 1) then 1 else 0) * f a = 0 := by
        rw [if_neg (by omega)]
        simp
      rw [hhead]
      have := ih (n + 1) j' (by simpa using hj)
      have harith : ∀ ia : Nat × α,
          (if ia.1 = n + 1 + j' then 1 else 0) * f ia.2
            = (if ia.1 = n + (j' + 1) then 1 else 0) * f ia.2 := by
        intro ia
        have he : n + 1 + j' = n + (j' + 1) := by omega
        rw [he]
      rw [List.getD_cons_succ]
      rw [← this]
      have hmapeq : (rest.enumFrom (n + 1)).map
          (fun ia => (if ia.1 = n + (j' + 1) then 1 else 0) * f ia.2)
          = (rest.enumFrom (n + 1)).map
          (fun ia => (if ia.1 = n + 1 + j' then 1 else 0) * f ia.2) := by
        apply List.map_congr_left
        intro ia _
        exact (harith ia).symm
      rw [hmapeq]
      simp

theorem enum_ite_sum {α : Type} (l : List α) (dflt : α) (f : α → Nat) (j : Nat)
    (hj : j < l.length) :
    (l.enum.map (fun ia => (if ia.1 = j then 1 else 0) * f ia.2)).sum
      = f (l.getD j dflt) := by
  have := enumFrom_ite_sum l dflt f 0 j hj
  simpa using this

/-- Summing `count · f` over the enumerated list equals summing `f` along
the index sequence, provided every index is in range. -/
theorem enum_count_sum {α : Type} (l : List α) (dflt : α) (f : α → Nat) :
    ∀ (seq : List Nat), (∀ j ∈ seq, j < l.length) →
    (l.enum.map (fun ia => (seq.count ia.1) * f ia.2)).sum
      = (seq.map (fun j => f (l.getD j dflt))).sum := by
  intro seq
  induction seq with
  | nil =>
    intro _
    simp
  | cons j rest ih =>
    intro hB
    have hj : j < l.length := hB j (List.mem_cons_self _ _)
    have hrest := ih (fun i hi => hB i (List.mem_cons_of_mem _ hi))
    have hcnt : ∀ ia : Nat × α,
        ((j :: rest).count ia.1) * f ia.2
          = (rest.count ia.1) * f ia.2 + (if ia.1 = j then 1 else 0) * f ia.2 := by
      intro ia
      by_cases h : ia.1 = j
      · rw [h, List.count_cons_self, if_pos rfl]
        ring
      · rw [List.count_cons_of_ne h, if_neg h]
        ring
    have hmapeq : l.enum.map (fun ia => ((j :: rest).count ia.1) * f ia.2)
        = l.enum.map (fun ia =>
            (rest.count ia.1) * f ia.2 + (if ia.1 = j then 1 else 0) * f ia.2) := by
      apply List.map_congr_left
      intro ia _
      exact hcnt ia
    rw [hmapeq, sum_map_add, hrest, enum_ite_sum l dflt f j hj]
    simp only [List.map_cons, List.sum_cons]
    omega

/-- The weighted sum over the tallied steps equals the per-index sum over
the raw sequence. -/
theorem build_steps_sum (seq : List Nat) (allowed : List (Char × Nat))
    (g : Char → Nat) :
    ((build_steps_from_seq seq allowed).map (fun sc => sc.2 * g sc.1)).sum
      = (allowed.enum.map (fun ise => (seq.count ise.1) * g ise.2.1)).sum := by
  simp only [build_steps_from_seq]
  generalize allowed.enum = l
  induction l with
  | nil => rfl
  | cons a rest ih =>
    simp only [List.filterMap_cons]
    by_cases hc : seq.count a.1 = 0
    · simp only [hc]
      rw [if_neg (by simp)]
      simp only [List.map_cons, List.sum_cons, hc, Nat.zero_mul, Nat.zero_add]
      exact ih
    · rw [if_pos (by simpa using hc)]
      simp only [List.map_cons, List.sum_cons]
      rw [ih]

/-- Summing mod 9 commutes with reducing each term mod 9. -/
theorem sum_mod_nine (l : List Nat) (f g : Nat → Nat)
    (h : ∀ j ∈ l, f j % 9 = g j % 9) :
    (l.map f).sum % 9 = (l.map g).sum % 9 := by
  induction l with
  | nil => rfl
  | cons a rest ih =>
    simp only [List.map_cons, List.sum_cons]
    have h1 := h a (List.mem_cons_self _ _)
    have h2 := ih (fun j hj => h j (List.mem_cons_of_mem _ hj))
    omega

/-! ## Inversion of `optimize_attunement`'s success cases -/

theorem target_residue_lt (total : Nat) (target : Int) :
    target_residue total target < 9 := by
  simp only [target_residue]
  omega

theorem target_residue_add (total : Nat) (target : Int) :
    ((total : Int) + (target_residue total target : Int)) % 9 = target % 9 := by
  simp only [target_residue]
  omega

/-- Every entry of the allowed list pairs a symbol with its (nonzero)
energy. -/
theorem attunement_allowed_energy (p : Principle) (as : Option (List Char)) :
    ∀ se ∈ attunement_allowed p as, char_energy se.1 p = se.2 ∧ se.2 ≠ 0 := by
  intro se hse
  simp only [attunement_allowed] at hse
  obtain ⟨c, _, hcc⟩ := List.mem_filterMap.mp hse
  by_cases h0 : char_energy c p = 0
  · simp [h0] at hcc
  · simp only [h0, if_neg, ite_false] at hcc
    injection hcc with hcc
    rw [← hcc]
    exact ⟨rfl, h0⟩

/-- Inversion of a successful `optimize_attunement` call: either the text
was already attuned and the plan is empty, or the steps come from a
successful BFS over the allowed list. -/
theorem optimize_attunement_ok (text : List Char) (target : Int) (p : Principle)
    (as : Option (List Char)) (method : String) (ms : Nat) (plan : Plan)
    (h : optimize_attunement text target p as method ms = .ok plan) :
    (1 ≤ target ∧ target ≤ 9) ∧ plan.method = method ∧ plan.target = target ∧
    ((((digital_root (energy_total text p) p.normalize_zero_to_nine : Int) = target)
        ∧ plan.steps = []
        ∧ plan = ⟨method, target, [], energy_total text p,
            digital_root (energy_total text p) p.normalize_zero_to_nine,
            energy_total text p,
            digital_root (energy_total text p) p.normalize_zero_to_nine⟩)
      ∨ (∃ seq : List Nat,
          minimal_residue_combo (target_residue (energy_total text p) target)
            (attunement_allowed p as) ms = some seq
          ∧ plan.steps = build_steps_from_seq seq (attunement_allowed p as))) := by
  simp only [optimize_attunement] at h
  by_cases ht : 1 ≤ target ∧ target ≤ 9
  case neg =>
    rw [if_pos ht] at h
    exact absurd h (by simp)
  rw [if_neg (not_not_intro ht)] at h
  by_cases hdr : ((digital_root (energy_total text p) p.normalize_zero_to_nine : Int))
      = target
  · rw [if_pos hdr] at h
    injection h with h
    subst h
    exact ⟨ht, rfl, rfl, Or.inl ⟨hdr, rfl, rfl⟩⟩
  · rw [if_neg hdr] at h
    by_cases hemp : attunement_allowed p as = []
    · rw [if_pos hemp] at h
      exact absurd h (by simp)
    · rw [if_neg hemp] at h
      rcases hc : minimal_residue_combo (target_residue (energy_total text p) target)
          (attunement_allowed p as) ms with _ | seq
      · rw [hc] at h
        exact absurd h (by simp)
      · rw [hc] at h
        injection h with h
        subst h
        exact ⟨ht, rfl, rfl, Or.inr ⟨seq, rfl, rfl⟩⟩

/-- The `added` energy of a plan built from a BFS sequence is congruent,
mod 9, to the sum of the chosen symbols' residues. -/
theorem steps_energy_mod (p : Principle) (as : Option (List Char))
    (seq : List Nat)
    (hB : ∀ j ∈ seq, j < (attunement_allowed p as).length) :
    ((build_steps_from_seq seq (attunement_allowed p as)).map
        (fun sc => sc.2 * char_energy sc.1 p)).sum % 9
      = (seq.map (fun j =>
          ((attunement_allowed p as).map (fun se => se.2 % 9)).getD j 0)).sum % 9 := by
  rw [build_steps_sum seq (attunement_allowed p as) (fun c => char_energy c p)]
  rw [enum_count_sum (attunement_allowed p as) (' ', 0)
    (fun se => char_energy se.1 p) seq hB]
  refine sum_mod_nine seq _ _ ?_
  intro j hj
  have hjl := hB j hj
  have hmem : (attunement_allowed p as).getD j (' ', 0) ∈ attunement_allowed p as := by
    rw [List.getD_eq_getElem _ _ hjl]
    exact List.getElem_mem hjl
  have he := (attunement_allowed_energy p as _ hmem).1
  rw [he]
  have hmap : ((attunement_allowed p as).map (fun se => se.2 % 9)).getD j 0
      = ((attunement_allowed p as).getD j (' ', 0)).2 % 9 := by
    rw [List.getD_eq_getElem _ _ (by simpa using hjl), List.getD_eq_getElem _ _ hjl]
    simp
  rw [hmap]
  omega

/-- C1 (amended): under a principle that normalizes zero to nine (the
default), whenever `optimize_attunement` returns a plan, applying that
plan with `apply_plan` — under any method the applier accepts, including
append, prepend and intersperse, and any spread — yields a string whose
checksum digital root equals the target.  The original claim, quantified
over every principle, fails when `normalize_zero_to_nine` is off: an
empty text with target 9 yields an empty plan whose application leaves
the digital root at 0. -/
theorem C1_attunement_reaches_target (text : List Char) (target : Int)
    (p : Principle) (as : Option (List Char)) (method : String) (ms : Nat)
    (spread : Option Int) (plan : Plan) (out : List Char)
    (hnorm : p.normalize_zero_to_nine = true)
    (hplan : optimize_attunement text target p as method ms = .ok plan)
    (happ : apply_plan text plan spread = .ok out) :
    ((string_energy out p).2 : Int) = target := by
  obtain ⟨⟨h1, h9⟩, _, _, hcases⟩ := optimize_attunement_ok text target p as
    method ms plan hplan
  have hout : energy_total out p
      = energy_total text p + energy_total (flatten_steps plan.steps) p :=
    apply_plan_energy text plan spread p out happ
  rcases hcases with ⟨hdr, hsteps, _⟩ | ⟨seq, hcombo, hsteps⟩
  · rw [hsteps] at hout
    have hz : energy_total (flatten_steps []) p = 0 := rfl
    rw [hz, Nat.add_zero] at hout
    simp only [string_energy]
    rw [hnorm] at hdr ⊢
    rw [hout]
    exact hdr
  · obtain ⟨hval, hsum, _, _⟩ := minimal_residue_combo_spec
      (target_residue (energy_total text p) target) (attunement_allowed p as) ms
      (target_residue_lt _ _) seq hcombo
    have hmod := steps_energy_mod p as seq hval
    rw [hsum] at hmod
    rw [hsteps] at hout
    rw [energy_flatten] at hout
    simp only [string_energy]
    rw [hnorm]
    rw [dr_eq_iff_mod _ target h1 h9]
    have hadd := target_residue_add (energy_total text p) target
    omega

/-- Witness for C1: `"ABC"` (total 6, digital root 6) attuned to target 1
under the default principle gains one `'?'` (energy 4), giving total 10,
digital root 1. -/
theorem C1_witness :
    ((string_energy ['A', 'B', 'C', '?'] defaultPrinciple).2 : Int) = 1 :=
  C1_attunement_reaches_target ['A', 'B', 'C'] 1 defaultPrinciple none "append"
    64 none ⟨"append", 1, [('?', 1)], 6, 6, 10, 1⟩ ['A', 'B', 'C', '?'] rfl
    rfl rfl

/-- A principle with zero-normalization off and no symbol table. -/
def noNormPrinciple : Principle :=
  ⟨[], "a1z26", false, 1, 1, 1⟩

/-- C1, refuting the claim as stated over every principle: with
`normalize_zero_to_nine` off, the empty text with target 9 still gets a
plan (the required residue delta is 0, so the BFS trivially returns the
empty combination), yet applying the plan leaves the checksum digital
root at 0, not 9. -/
theorem C1_counterexample :
    optimize_attunement [] 9 noNormPrinciple none "append" 64
      = .ok ⟨"append", 9, [], 0, 0, 0, 0⟩
    ∧ apply_plan [] ⟨"append", 9, [], 0, 0, 0, 0⟩ none = .ok []
    ∧ ((string_energy [] noNormPrinciple).2 : Int) ≠ 9 :=
  ⟨rfl, rfl, by decide⟩

/-! ## DP verification for `optimize_substitution` -/

theorem assocSet_lookup_self (l : BestT) (k : Nat) (v : DpEntry) :
    (assocSet l k v).lookup k = some v := by
  induction l with
  | nil =>
    simp only [assocSet]
    rw [lookup_singleton, if_pos rfl]
  | cons kv rest ih =>
    obtain ⟨k', v'⟩ := kv
    simp only [assocSet]
    by_cases h : k' = k
    · rw [if_pos h]
      have hbeq : (k == k) = true := beq_self_eq_true k
      simp [List.lookup, hbeq]
    · rw [if_neg h]
      have hbeq : (k == k') = false := beq_eq_false_iff_ne.mpr (fun e => h e.symm)
      simp only [List.lookup, hbeq]
      exact ih

theorem assocSet_lookup_other (l : BestT) (k a : Nat) (v : DpEntry) (h : a ≠ k) :
    (assocSet l k v).lookup a = l.lookup a := by
  induction l with
  | nil =>
    simp only [assocSet]
    rw [lookup_singleton, if_neg (fun e => h e.symm)]
    simp [List.lookup]
  | cons kv rest ih =>
    obtain ⟨k', v'⟩ := kv
    simp only [assocSet]
    by_cases hk : k' = k
    · rw [if_pos hk]
      subst hk
      have hbeq : (a == k') = false := beq_eq_false_iff_ne.mpr h
      simp [List.lookup, hbeq]
    · rw [if_neg hk]
      by_cases hak : a = k'
      · subst hak
        have hbeq : (a == a) = true := beq_self_eq_true a
        simp [List.lookup, hbeq]
      · have hbeq : (a == k') = false := beq_eq_false_iff_ne.mpr hak
        simp only [List.lookup, hbeq]
        exact ih

/-- `b2` dominates `b1`: every residue known to `b1` is known to `b2`
with an edit count at most as large. -/
def Dominates (b2 b1 : BestT) : Prop :=
  ∀ (k : Nat) (e1 : DpEntry), b1.lookup k = some e1 →
    ∃ e2 : DpEntry, b2.lookup k = some e2 ∧ e2.1 ≤ e1.1

theorem dominates_refl (b : BestT) : Dominates b b :=
  fun k e1 h => ⟨e1, h, le_refl _⟩

theorem dominates_trans {b3 b2 b1 : BestT} (h32 : Dominates b3 b2)
    (h21 : Dominates b2 b1) : Dominates b3 b1 := by
  intro k e1 h1
  obtain ⟨e2, h2, hle2⟩ := h21 k e1 h1
  obtain ⟨e3, h3, hle3⟩ := h32 k e2 h2
  exact ⟨e3, h3, le_trans hle3 hle2⟩

/-- One tentative write only improves the table. -/
theorem dp_write_dominates (i res cnt max_edits : Nat) (nb : BestT)
    (o : Nat × Option Char) :
    Dominates (dp_write i res cnt max_edits nb o) nb := by
  intro k e1 h1
  simp only [dp_write]
  by_cases hmax : max_edits < cnt + 1
  · rw [if_pos hmax]
    exact ⟨e1, h1, le_refl _⟩
  · rw [if_neg hmax]
    cases hl : nb.lookup ((res + o.1) % 9) with
    | none =>
      refine ⟨e1, ?_, le_refl _⟩
      rw [lookup_append_left]
      · exact h1
      · simp [h1]
    | some e0 =>
      dsimp only
      by_cases hlt : cnt + 1 < e0.1
      · rw [if_pos hlt]
        by_cases hk : k = (res + o.1) % 9
        · subst hk
          rw [hl] at h1
          injection h1 with h1
          subst h1
          refine ⟨(cnt + 1, (res : Int), ((i : Int), o.1, o.2)),
            assocSet_lookup_self nb _ _, ?_⟩
          dsimp only
          omega
        · exact ⟨e1, by rw [assocSet_lookup_other nb _ k _ hk]; exact h1, le_refl _⟩
      · rw [if_neg hlt]
        exact ⟨e1, h1, le_refl _⟩

theorem dp_fold_write_dominates (i res cnt max_edits : Nat)
    (opts : List (Nat × Option Char)) :
    ∀ nb : BestT, Dominates (opts.foldl (dp_write i res cnt max_edits) nb) nb := by
  induction opts with
  | nil => intro nb; exact dominates_refl nb
  | cons o rest ih =>
    intro nb
    simp only [List.foldl_cons]
    exact dominates_trans (ih _) (dp_write_dominates i res cnt max_edits nb o)

theorem dp_step_dominates (opts : List (Nat × Option Char)) (i max_edits : Nat)
    (nb : BestT) (st : Nat × DpEntry) :
    Dominates (dp_step opts i max_edits nb st) nb :=
  dp_fold_write_dominates i st.1 st.2.1 max_edits opts nb

theorem dp_fold_step_dominates (opts : List (Nat × Option Char)) (i max_edits : Nat)
    (l : List (Nat × DpEntry)) :
    ∀ nb : BestT, Dominates (l.foldl (dp_step opts i max_edits) nb) nb := by
  induction l with
  | nil => intro nb; exact dominates_refl nb
  | cons st rest ih =>
    intro nb
    simp only [List.foldl_cons]
    exact dominates_trans (ih _) (dp_step_dominates opts i max_edits nb st)

theorem dp_round_dominates (opts : List (Nat × Option Char)) (i max_edits : Nat)
    (best : BestT) : Dominates (dp_round opts i max_edits best) best :=
  dp_fold_step_dominates opts i max_edits best best

/-- A write whose transition is within budget leaves the successor
residue present with count at most `cnt + 1`. -/
theorem dp_write_hit (i res cnt max_edits : Nat) (nb : BestT)
    (o : Nat × Option Char) (hmax : cnt + 1 ≤ max_edits) :
    ∃ e : DpEntry, (dp_write i res cnt max_edits nb o).lookup ((res + o.1) % 9)
      = some e ∧ e.1 ≤ cnt + 1 := by
  simp only [dp_write]
  rw [if_neg (by omega)]
  cases hl : nb.lookup ((res + o.1) % 9) with
  | none =>
    exact ⟨_, lookup_append_fresh nb _ _ hl, le_refl _⟩
  | some e0 =>
    dsimp only
    by_cases hlt : cnt + 1 < e0.1
    · rw [if_pos hlt]
      exact ⟨_, assocSet_lookup_self nb _ _, le_refl _⟩
    · rw [if_neg hlt]
      exact ⟨e0, hl, by omega⟩

theorem dp_step_hit (opts : List (Nat × Option Char)) (i max_edits : Nat)
    (nb : BestT) (st : Nat × DpEntry) (o : Nat × Option Char) (ho : o ∈ opts)
    (hmax : st.2.1 + 1 ≤ max_edits) :
    ∃ e : DpEntry, (dp_step opts i max_edits nb st).lookup ((st.1 + o.1) % 9)
      = some e ∧ e.1 ≤ st.2.1 + 1 := by
  obtain ⟨l1, l2, rfl⟩ := List.append_of_mem ho
  simp only [dp_step, List.foldl_append, List.foldl_cons]
  obtain ⟨e, he, hle⟩ := dp_write_hit i st.1 st.2.1 max_edits
    (l1.foldl (dp_write i st.1 st.2.1 max_edits) nb) o hmax
  obtain ⟨e2, he2, hle2⟩ := dp_fold_write_dominates i st.1 st.2.1 max_edits l2 _
    ((st.1 + o.1) % 9) e he
  exact ⟨e2, he2, le_trans hle2 hle⟩

theorem dp_round_hit (opts : List (Nat × Option Char)) (i max_edits : Nat)
    (best : BestT) (st : Nat × DpEntry) (hst : st ∈ best)
    (o : Nat × Option Char) (ho : o ∈ opts) (hmax : st.2.1 + 1 ≤ max_edits) :
    ∃ e : DpEntry, (dp_round opts i max_edits best).lookup ((st.1 + o.1) % 9)
      = some e ∧ e.1 ≤ st.2.1 + 1 := by
  obtain ⟨l1, l2, rfl⟩ := List.append_of_mem hst
  simp only [dp_round, List.foldl_append, List.foldl_cons]
  obtain ⟨e, he, hle⟩ := dp_step_hit opts i max_edits
    (l1.foldl (dp_step opts i max_edits) (l1 ++ st :: l2)) st o ho hmax
  obtain ⟨e2, he2, hle2⟩ := dp_fold_step_dominates opts i max_edits l2 _
    ((st.1 + o.1) % 9) e he
  exact ⟨e2, he2, le_trans hle2 hle⟩

/-- Elements accumulated by the `seen` fold of `optimize_substitution`
all carry residues below 9. -/
theorem seen_fold_bound (p : Principle) (ce : Nat) :
    ∀ (l : List Char) (acc : List (Nat × Char)),
    (∀ rr ∈ acc, rr.1 < 9) →
    ∀ rr ∈ l.foldl (fun seen repl =>
        let r := (((char_energy repl p : Int) - (ce : Int)) % 9).toNat
        if (seen.lookup r).isSome then seen else seen ++ [(r, repl)]) acc,
      rr.1 < 9 := by
  intro l
  induction l with
  | nil => intro acc hacc rr hrr; exact hacc rr hrr
  | cons c rest ihl =>
    intro acc hacc rr hrr
    simp only [List.foldl_cons] at hrr
    refine ihl _ ?_ rr hrr
    intro rr' hrr'
    by_cases hs : ((acc.lookup
        ((((char_energy c p : Int) - (ce : Int)) % 9).toNat)).isSome : Prop)
    · rw [if_pos hs] at hrr'
      exact hacc rr' hrr'
    · rw [if_neg hs] at hrr'
      rcases List.mem_append.mp hrr' with hh | hh
      · exact hacc rr' hh
      · rw [List.mem_singleton] at hh
        subst hh
        dsimp only
        omega

/-- Every option stored in a position's option list has a nonzero residue
delta below 9. -/
theorem position_options_valid (ch : Char) (p : Principle)
    (subs : Option (List (Char × List Char))) (ad : Bool) :
    ∀ o ∈ position_options ch p subs ad, o.1 ≠ 0 ∧ o.1 < 9 := by
  intro o ho
  simp only [position_options] at ho
  split_ifs at ho <;>
  (try (rcases List.mem_append.mp ho with ho | ho)) <;>
  (first
    | (rw [List.mem_singleton] at ho
       subst ho
       exact ⟨by assumption, by omega⟩)
    | (obtain ⟨rr, hrr, rfl⟩ := List.mem_map.mp ho
       have hf := List.mem_filter.mp hrr
       refine ⟨by simpa using hf.2, ?_⟩
       first
         | exact seen_fold_bound p (char_energy ch p) _ [] (by simp) rr hf.1
         | (rcases List.mem_append.mp hf.1 with hm | hm
            · exact seen_fold_bound p (char_energy ch p) _ [] (by simp) rr hm
            · rw [List.mem_singleton] at hm
              subst hm
              omega)))

theorem lookup_eq_some_of_mem_nodup {β : Type} (l : List (Nat × β)) (k : Nat)
    (v : β) (hnd : (l.map Prod.fst).Nodup) (hmem : (k, v) ∈ l) :
    l.lookup k = some v := by
  induction l with
  | nil => simp at hmem
  | cons kv rest ih =>
    obtain ⟨k', v'⟩ := kv
    rcases List.mem_cons.mp hmem with heq | hmem'
    · injection heq with h1 h2
      subst h1
      subst h2
      have hbeq : (k == k) = true := beq_self_eq_true k
      simp [List.lookup, hbeq]
    · by_cases hk : k' = k
      · exfalso
        subst hk
        have : k' ∈ rest.map Prod.fst := List.mem_map.mpr ⟨(k', v), hmem', rfl⟩
        exact (List.nodup_cons.mp (by simpa using hnd)).1 this
      · have hbeq : (k == k') = false := beq_eq_false_iff_ne.mpr (fun e => hk e.symm)
        simp only [List.lookup, hbeq]
        exact ih (List.nodup_cons.mp (by simpa using hnd)).2 hmem'

theorem mem_of_lookup_eq_some {β : Type} (l : List (Nat × β)) (k : Nat) (v : β)
    (h : l.lookup k = some v) : (k, v) ∈ l := by
  induction l with
  | nil => simp [List.lookup] at h
  | cons kv rest ih =>
    obtain ⟨k', v'⟩ := kv
    by_cases hk : k' = k
    · subst hk
      have hbeq : (k' == k') = true := beq_self_eq_true k'
      simp only [List.lookup, hbeq] at h
      injection h with h
      subst h
      exact List.mem_cons_self _ _
    · have hbeq : (k == k') = false := beq_eq_false_iff_ne.mpr (fun e => hk e.symm)
      simp only [List.lookup, hbeq] at h
      exact List.mem_cons_of_mem _ (ih h)

/-- A valid selection of residue-changing edits over an enumerated text
suffix: at most one option per position, drawn in position order, each
from that position's option list.  This is exactly the search space the
DP of `optimize_substitution` explores. -/
inductive SelOver (p : Principle) (subs : Option (List (Char × List Char)))
    (ad : Bool) : List (Nat × Char) → List (Nat × Nat × Option Char) → Prop where
  | nil : SelOver p subs ad [] []
  | skip (ic : Nat × Char) (es : List (Nat × Char))
      (sel : List (Nat × Nat × Option Char)) :
      SelOver p subs ad es sel → SelOver p subs ad (ic :: es) sel
  | take (ic : Nat × Char) (r : Nat) (repl : Option Char)
      (es : List (Nat × Char)) (sel : List (Nat × Nat × Option Char)) :
      (r, repl) ∈ position_options ic.2 p subs ad →
      SelOver p subs ad es sel →
      SelOver p subs ad (ic :: es) ((ic.1, r, repl) :: sel)

/-- Relative DP dominance: from any table entry, folding the remaining
positions drops the residue reached by appending any valid selection to
an edit count no worse than the entry's plus the selection's size. -/
theorem dp_sel_dominates (p : Principle) (subs : Option (List (Char × List Char)))
    (ad : Bool) (max_edits : Nat) :
    ∀ (es : List (Nat × Char)) (sel : List (Nat × Nat × Option Char)),
    SelOver p subs ad es sel →
    ∀ (B : BestT) (res0 c0 : Nat) (e : DpEntry),
    res0 < 9 →
    B.lookup res0 = some e → e.1 ≤ c0 →
    c0 + sel.length ≤ max_edits →
    ∃ e' : DpEntry,
      (es.foldl (fun best ic =>
        dp_round (position_options ic.2 p subs ad) ic.1 max_edits best) B).lookup
          ((res0 + (sel.map (fun x => x.2.1)).sum) % 9) = some e'
      ∧ e'.1 ≤ c0 + sel.length := by
  intro es sel hsel
  induction hsel with
  | nil =>
    intro B res0 c0 e h9 hB he hbud
    simp only [List.foldl_nil, List.map_nil, List.sum_nil, Nat.add_zero]
    rw [Nat.mod_eq_of_lt h9]
    exact ⟨e, hB, by simpa using he⟩
  | skip ic es sel hrec ih =>
    intro B res0 c0 e h9 hB he hbud
    simp only [List.foldl_cons]
    obtain ⟨e2, hB2, he2⟩ := dp_round_dominates (position_options ic.2 p subs ad)
      ic.1 max_edits B res0 e hB
    exact ih _ res0 c0 e2 h9 hB2 (le_trans he2 he) hbud
  | take ic r repl es sel hopt hrec ih =>
    intro B res0 c0 e h9 hB he hbud
    simp only [List.length_cons] at hbud
    simp only [List.foldl_cons, List.map_cons, List.sum_cons]
    have hst : (res0, e) ∈ B := mem_of_lookup_eq_some B res0 e hB
    have hmax : e.1 + 1 ≤ max_edits := by omega
    obtain ⟨e1, hB1, he1⟩ := dp_round_hit (position_options ic.2 p subs ad) ic.1
      max_edits B (res0, e) hst (r, repl) hopt hmax
    have he1' : e1.1 ≤ e.1 + 1 := he1
    have h9' : (res0 + r) % 9 < 9 := Nat.mod_lt _ (by omega)
    obtain ⟨e', hB', he'⟩ := ih _ ((res0 + r) % 9) (c0 + 1) e1 h9' hB1
      (by omega) (by omega)
    refine ⟨e', ?_, by simp only [List.length_cons]; omega⟩
    have hkey : ((res0 + r) % 9 + (sel.map (fun x => x.2.1)).sum) % 9
        = (res0 + (r + (sel.map (fun x => x.2.1)).sum)) % 9 := by
      omega
    rw [← hkey]
    exact hB'

theorem not_mem_keys_of_lookup_none {β : Type} (l : List (Nat × β)) (k : Nat)
    (h : l.lookup k = none) : k ∉ l.map Prod.fst := by
  induction l with
  | nil => simp
  | cons kv rest ih =>
    obtain ⟨k', v'⟩ := kv
    by_cases hk : k' = k
    · subst hk
      have hbeq : (k' == k') = true := beq_self_eq_true k'
      simp [List.lookup, hbeq] at h
    · have hbeq : (k == k') = false := beq_eq_false_iff_ne.mpr (fun e => hk e.symm)
      simp only [List.lookup, hbeq] at h
      simp only [List.map_cons, List.mem_cons]
      rintro (rfl | hm)
      · exact hk rfl
      · exact ih h hm

theorem assocSet_keys_of_mem (l : BestT) (k : Nat) (v : DpEntry)
    (h : (l.lookup k).isSome) :
    (assocSet l k v).map Prod.fst = l.map Prod.fst := by
  induction l with
  | nil => simp [List.lookup] at h
  | cons kv rest ih =>
    obtain ⟨k', v'⟩ := kv
    by_cases hk : k' = k
    · subst hk
      simp [assocSet]
    · have hbeq : (k == k') = false := beq_eq_false_iff_ne.mpr (fun e => hk e.symm)
      simp only [List.lookup, hbeq] at h
      simp only [assocSet, if_neg hk, List.map_cons]
      rw [ih h]

/-- Shape invariant of the DP table: the root entry is pinned at residue
0 with zero edits, keys are unique residues below 9, counts respect the
budget, and every non-root entry points at a strictly cheaper discovered
predecessor through a real position. -/
def DpInv (best : BestT) (max_edits : Nat) : Prop :=
  best.lookup 0 = some (0, -1, (-1, 0, none)) ∧
  (best.map Prod.fst).Nodup ∧
  ∀ (res : Nat) (e : DpEntry), best.lookup res = some e →
    res < 9 ∧ e.1 ≤ max_edits ∧
    (res ≠ 0 → 0 ≤ e.2.1 ∧ 0 ≤ e.2.2.1 ∧
      ∃ e' : DpEntry, best.lookup e.2.1.toNat = some e' ∧ e'.1 < e.1)

/-- One write preserves the shape invariant, as long as the source state
is a genuine entry of the round's input table that the accumulator
dominates. -/
theorem dp_write_inv (i max_edits : Nat) (best nb : BestT)
    (st : Nat × DpEntry) (o : Nat × Option Char)
    (hinvb : DpInv best max_edits) (hinv : DpInv nb max_edits)
    (hdom : Dominates nb best) (hst : st ∈ best)
    (ho : o.1 ≠ 0 ∧ o.1 < 9) :
    DpInv (dp_write i st.1 st.2.1 max_edits nb o) max_edits := by
  obtain ⟨hrootb, hndb, hentb⟩ := hinvb
  obtain ⟨hroot, hnd, hent⟩ := hinv
  have hstl : best.lookup st.1 = some st.2 :=
    lookup_eq_some_of_mem_nodup best st.1 st.2 hndb hst
  have hst9 : st.1 < 9 := (hentb st.1 st.2 hstl).1
  obtain ⟨ed, hed, hedle⟩ := hdom st.1 st.2 hstl
  simp only [dp_write]
  by_cases hmax : max_edits < st.2.1 + 1
  · rw [if_pos hmax]
    exact ⟨hroot, hnd, hent⟩
  · rw [if_neg hmax]
    set nr := (st.1 + o.1) % 9 with hnr
    have hner : st.1 ≠ nr := by
      intro he
      rw [hnr] at he
      omega
    cases hl : nb.lookup nr with
    | none =>
      have hnr0 : nr ≠ 0 := by
        intro he
        rw [he] at hl
        rw [hroot] at hl
        simp at hl
      refine ⟨?_, ?_, ?_⟩
      · rw [lookup_append_left _ _ _ (by simp [hroot])]
        exact hroot
      · rw [List.map_append]
        refine List.Nodup.append hnd (List.nodup_singleton nr) ?_
        intro x hx1 hx2
        simp only [List.map_cons, List.map_nil, List.mem_singleton] at hx2
        subst hx2
        exact not_mem_keys_of_lookup_none nb nr hl hx1
      · intro res e hres
        by_cases hrnr : res = nr
        · subst hrnr
          rw [lookup_append_fresh _ _ _ hl] at hres
          injection hres with hres
          subst hres
          refine ⟨by omega, by dsimp only; omega, fun _ => ?_⟩
          refine ⟨by dsimp only; positivity, by dsimp only; positivity, ?_⟩
          refine ⟨ed, ?_, ?_⟩
          · have : ((st.1 : Int)).toNat = st.1 := by omega
            rw [show (((st.2.1 + 1, (st.1 : Int), ((i : Int), o.1, o.2)) : DpEntry)).2.1.toNat
                = st.1 by dsimp only; omega]
            rw [lookup_append_left _ _ _ (by simp [hed])]
            exact hed
          · dsimp only
            omega
        · rw [lookup_append_other _ _ _ _ hrnr] at hres
          obtain ⟨h9, hle, hchain⟩ := hent res e hres
          refine ⟨h9, hle, fun hr0 => ?_⟩
          obtain ⟨hp1, hp2, e', he', helt⟩ := hchain hr0
          refine ⟨hp1, hp2, e', ?_, helt⟩
          rw [lookup_append_left _ _ _ (by simp [he'])]
          exact he'
    | some e0 =>
      dsimp only
      by_cases hlt : st.2.1 + 1 < e0.1
      · rw [if_pos hlt]
        have hnr0 : nr ≠ 0 := by
          intro he
          rw [he] at hl
          rw [hroot] at hl
          injection hl with hl
          rw [← hl] at hlt
          simp at hlt
        refine ⟨?_, ?_, ?_⟩
        · rw [assocSet_lookup_other _ _ _ _ (fun e => hnr0 e.symm)]
          exact hroot
        · rw [assocSet_keys_of_mem nb nr _ (by simp [hl])]
          exact hnd
        · intro res e hres
          by_cases hrnr : res = nr
          · subst hrnr
            rw [assocSet_lookup_self] at hres
            injection hres with hres
            subst hres
            obtain ⟨h9nr, _, _⟩ := hent nr e0 hl
            refine ⟨h9nr, by dsimp only; omega, fun _ => ?_⟩
            refine ⟨by dsimp only; positivity, by dsimp only; positivity, ?_⟩
            refine ⟨ed, ?_, ?_⟩
            · rw [show (((st.2.1 + 1, (st.1 : Int), ((i : Int), o.1, o.2)) : DpEntry)).2.1.toNat
                  = st.1 by dsimp only; omega]
              rw [assocSet_lookup_other _ _ _ _ hner]
              exact hed
            · dsimp only
              omega
          · rw [assocSet_lookup_other _ _ _ _ hrnr] at hres
            obtain ⟨h9, hle, hchain⟩ := hent res e hres
            refine ⟨h9, hle, fun hr0 => ?_⟩
            obtain ⟨hp1, hp2, e', he', helt⟩ := hchain hr0
            by_cases hpnr : e.2.1.toNat = nr
            · refine ⟨hp1, hp2, (st.2.1 + 1, (st.1 : Int), ((i : Int), o.1, o.2)), ?_, ?_⟩
              · rw [hpnr, assocSet_lookup_self]
              · rw [hpnr] at he'
                rw [hl] at he'
                injection he' with he'
                subst he'
                dsimp only
                omega
            · refine ⟨hp1, hp2, e', ?_, helt⟩
              rw [assocSet_lookup_other _ _ _ _ hpnr]
              exact he'
      · rw [if_neg hlt]
        exact ⟨hroot, hnd, hent⟩

theorem dp_step_inv (opts : List (Nat × Option Char)) (i max_edits : Nat)
    (best : BestT) (hinvb : DpInv best max_edits)
    (hopts : ∀ o ∈ opts, o.1 ≠ 0 ∧ o.1 < 9) :
    ∀ (nb : BestT) (st : Nat × Nat × Int × (Int × Nat × Option Char)),
    DpInv nb max_edits → Dominates nb best → st ∈ best →
    DpInv (dp_step opts i max_edits nb st) max_edits
    ∧ Dominates (dp_step opts i max_edits nb st) best := by
  induction opts with
  | nil =>
    intro nb st hinv hdom _
    exact ⟨hinv, hdom⟩
  | cons o rest ih =>
    intro nb st hinv hdom hst
    have hor := fun o' ho' => hopts o' (List.mem_cons_of_mem _ ho')
    have hoh := hopts o (List.mem_cons_self _ _)
    have h1 : DpInv (dp_write i st.1 st.2.1 max_edits nb o) max_edits :=
      dp_write_inv i max_edits best nb st o hinvb hinv hdom hst hoh
    have h2 : Dominates (dp_write i st.1 st.2.1 max_edits nb o) best :=
      dominates_trans (dp_write_dominates i st.1 st.2.1 max_edits nb o) hdom
    simp only [dp_step, List.foldl_cons]
    exact ih hor (dp_write i st.1 st.2.1 max_edits nb o) st h1 h2 hst

theorem dp_round_inv (opts : List (Nat × Option Char)) (i max_edits : Nat)
    (best : BestT) (hinvb : DpInv best max_edits)
    (hopts : ∀ o ∈ opts, o.1 ≠ 0 ∧ o.1 < 9) :
    DpInv (dp_round opts i max_edits best) max_edits := by
  suffices h : ∀ (l : List (Nat × DpEntry)) (nb : BestT),
      (∀ st ∈ l, st ∈ best) → DpInv nb max_edits → Dominates nb best →
      DpInv (l.foldl (dp_step opts i max_edits) nb) max_edits
      ∧ Dominates (l.foldl (dp_step opts i max_edits) nb) best by
    exact (h best best (fun st hst => hst) hinvb (dominates_refl best)).1
  intro l
  induction l with
  | nil =>
    intro nb _ hinv hdom
    exact ⟨hinv, hdom⟩
  | cons st rest ih =>
    intro nb hl hinv hdom
    simp only [List.foldl_cons]
    obtain ⟨h1, h2⟩ := dp_step_inv opts i max_edits best hinvb hopts nb st hinv
      hdom (hl st (List.mem_cons_self _ _))
    exact ih _ (fun st' hst' => hl st' (List.mem_cons_of_mem _ hst')) h1 h2

/-- The full DP table satisfies the shape invariant. -/
theorem dp_table_inv (text : List Char) (p : Principle)
    (subs : Option (List (Char × List Char))) (ad : Bool) (max_edits : Nat) :
    DpInv (dp_table text p subs ad max_edits) max_edits := by
  have hinit : DpInv [(0, ((0 : Nat), (-1 : Int), ((-1 : Int), (0 : Nat),
      (none : Option Char))))] max_edits := by
    refine ⟨by rw [lookup_singleton]; simp, by simp, ?_⟩
    intro res e hres
    rw [lookup_singleton] at hres
    by_cases h : (0 : Nat) = res
    · rw [if_pos h] at hres
      injection hres with hres
      subst hres
      exact ⟨by omega, by dsimp only; omega, fun hr0 => absurd h.symm hr0⟩
    · rw [if_neg h] at hres
      exact absurd hres (by simp)
  simp only [dp_table]
  suffices h : ∀ (es : List (Nat × Char)) (B : BestT), DpInv B max_edits →
      DpInv (es.foldl (fun best ic =>
        dp_round (position_options ic.2 p subs ad) ic.1 max_edits best) B)
        max_edits by
    exact h text.enum _ hinit
  intro es
  induction es with
  | nil => intro B hB; exact hB
  | cons ic rest ih =>
    intro B hB
    simp only [List.foldl_cons]
    exact ih _ (dp_round_inv _ _ _ _ hB (position_options_valid ic.2 p subs ad))

/-- The backpointer walk of `optimize_substitution` emits at most as many
operations as the starting entry's edit count. -/
theorem dp_reconstruct_len (best : BestT) (max_edits : Nat)
    (hinv : DpInv best max_edits) :
    ∀ (c res : Nat) (e : DpEntry) (fuel : Nat), best.lookup res = some e →
      e.1 ≤ c → c < fuel → (dp_reconstruct best res fuel).length ≤ c := by
  obtain ⟨hroot, hnd, hent⟩ := hinv
  intro c
  induction c using Nat.strong_induction_on with
  | _ c ihc =>
    intro res e fuel hres hle hfuel
    obtain ⟨cnt, prev, pos, rr, repl⟩ := e
    match fuel, hfuel with
    | fuel + 1, _ =>
      by_cases h0 : res = 0
      · subst h0
        simp [dp_reconstruct]
      · obtain ⟨_, _, hchain⟩ := hent res _ hres
        obtain ⟨hp1, hp2, e', he', helt⟩ := hchain h0
        have hrec : dp_reconstruct best res (fuel + 1)
            = (if 0 ≤ pos then
                match repl with
                | none => [⟨"del", pos, none, 1⟩]
                | some ch => [⟨"sub", pos, some ch, 1⟩]
              else []) ++ dp_reconstruct best prev.toNat fuel := by
          simp only [dp_reconstruct, h0, if_neg, ite_false, hres]
        rw [hrec]
        have hc1 : 1 ≤ c := by omega
        have hlen2 : (dp_reconstruct best prev.toNat fuel).length ≤ c - 1 := by
          refine ihc (c - 1) (by omega) prev.toNat e' fuel ?_ ?_ (by omega)
          · exact he'
          · omega
        rw [List.length_append]
        have hlen1 : (if 0 ≤ pos then
            (match repl with
            | none => [(⟨"del", pos, none, 1⟩ : EditOp)]
            | some ch => [⟨"sub", pos, some ch, 1⟩]) else []).length ≤ 1 := by
          split_ifs <;>
            first
            | exact Nat.zero_le 1
            | (cases repl <;> exact Nat.le.refl)
        omega

/-- When the current digital root already matches a target in `1..9`, the
required residue delta is zero. -/
theorem target_residue_zero (total : Nat) (target : Int) (b : Bool)
    (ht : 1 ≤ target ∧ target ≤ 9)
    (hdr : ((digital_root (total : Int) b : Int)) = target) :
    target_residue total target = 0 := by
  simp only [digital_root, target_residue, Int.natAbs_ofNat] at *
  cases b <;> simp only [Bool.false_eq_true, if_true, if_false] at hdr <;>
    split_ifs at hdr <;> omega

/-- The total insertion count of a plan built from a BFS index sequence is
the sequence's length. -/
theorem steps_count_sum (seq : List Nat) (allowed : List (Char × Nat))
    (hB : ∀ j ∈ seq, j < allowed.length) :
    ((build_steps_from_seq seq allowed).map Prod.snd).sum = seq.length := by
  have h1 : ((build_steps_from_seq seq allowed).map Prod.snd).sum
      = ((build_steps_from_seq seq allowed).map
          (fun sc => sc.2 * (fun _ : Char => 1) sc.1)).sum := by
    congr 1
    exact List.map_congr_left (fun sc _ => by simp)
  rw [h1, build_steps_sum seq allowed (fun _ => 1),
    enum_count_sum allowed (' ', 0) (fun _ => 1) seq hB]
  simp

/-- Inversion for `optimize_substitution` along the DP path: a returned
plan's op list is empty (early return) or exactly the reversed backpointer
walk of the final table. -/
theorem optimize_substitution_ok_dp (text : List Char) (target : Int)
    (p : Principle) (subs : Option (List (Char × List Char))) (ad : Bool)
    (ai : Option (List Char)) (me : Nat) (eplan : EditPlan)
    (h : optimize_substitution text target p subs ad ai me = .ok eplan)
    (hdp : ((dp_table text p subs ad me).lookup
        (target_residue (energy_total text p) target)).isSome) :
    eplan.ops = []
    ∨ eplan.ops = (dp_reconstruct (dp_table text p subs ad me)
        (target_residue (energy_total text p) target) (me + 2)).reverse := by
  simp only [optimize_substitution] at h
  by_cases ht : 1 ≤ target ∧ target ≤ 9
  case neg =>
    rw [if_pos ht] at h
    exact absurd h (by simp)
  rw [if_neg (not_not_intro ht)] at h
  by_cases hdr : ((digital_root (energy_total text p)
      p.normalize_zero_to_nine : Int)) = target
  · rw [if_pos hdr] at h
    injection h with h
    subst h
    exact Or.inl rfl
  · rw [if_neg hdr] at h
    obtain ⟨e, he⟩ := Option.isSome_iff_exists.mp hdp
    rw [he] at h
    injection h with h
    subst h
    exact Or.inr rfl

/-- C3: minimality of both planners.  (a) Every plan `optimize_attunement`
returns has a total insertion count that realizes the required residue
delta and is no larger than any realizable insertion count over the
effective symbol set — i.e. it equals the BFS shortest-path length over
the 9 residue states.  (b) Every plan `optimize_substitution` returns via
the DP path (final-table lookup of the delta succeeds, excluding the
insertion fallback) has no more operations than any valid selection of at
most `max_edits` residue-changing edits (at most one per original
position, each drawn from that position's option list) that realizes the
required residue delta. -/
theorem C3_minimality (text : List Char) (target : Int) (p : Principle) :
    (∀ (as : Option (List Char)) (method : String) (ms : Nat) (plan : Plan),
      optimize_attunement text target p as method ms = .ok plan →
      ReachesIn ((attunement_allowed p as).map (fun se => se.2 % 9))
        ((plan.steps.map Prod.snd).sum)
        (target_residue (energy_total text p) target)
      ∧ ∀ m, ReachesIn ((attunement_allowed p as).map (fun se => se.2 % 9)) m
          (target_residue (energy_total text p) target) →
          (plan.steps.map Prod.snd).sum ≤ m)
    ∧ (∀ (subs : Option (List (Char × List Char))) (ad : Bool)
        (ai : Option (List Char)) (me : Nat) (eplan : EditPlan),
      optimize_substitution text target p subs ad ai me = .ok eplan →
      ((dp_table text p subs ad me).lookup
        (target_residue (energy_total text p) target)).isSome →
      ∀ sel, SelOver p subs ad text.enum sel →
        (sel.map (fun x => x.2.1)).sum % 9
          = target_residue (energy_total text p) target →
        sel.length ≤ me →
        eplan.ops.length ≤ sel.length) := by
  constructor
  · intro as method ms plan hplan
    obtain ⟨ht, _, _, hcase⟩ :=
      optimize_attunement_ok text target p as method ms plan hplan
    rcases hcase with ⟨hdr, hsteps, _⟩ | ⟨seq, hseq, hsteps⟩
    · rw [hsteps]
      have h0 : target_residue (energy_total text p) target = 0 :=
        target_residue_zero _ _ _ ht hdr
      rw [h0]
      simp only [List.map_nil, List.sum_nil]
      exact ⟨⟨[], rfl, by simp, by simp⟩, fun m _ => Nat.zero_le m⟩
    · obtain ⟨hjB, _, hreach, hmin⟩ := minimal_residue_combo_spec
        (target_residue (energy_total text p) target) (attunement_allowed p as)
        ms (target_residue_lt _ _) seq hseq
      have hcnt : ((plan.steps.map Prod.snd).sum) = seq.length := by
        rw [hsteps]
        exact steps_count_sum seq _ hjB
      rw [hcnt]
      exact ⟨hreach, hmin⟩
  · intro subs ad ai me eplan hplan hdp sel hsel hsum hlen
    rcases optimize_substitution_ok_dp text target p subs ad ai me eplan hplan hdp
      with hops | hops
    · rw [hops]
      exact Nat.zero_le _
    · obtain ⟨e, he⟩ := Option.isSome_iff_exists.mp hdp
      have hinv := dp_table_inv text p subs ad me
      obtain ⟨e', he', hle'⟩ := dp_sel_dominates p subs ad me text.enum sel hsel
        [(0, ((0 : Nat), (-1 : Int), ((-1 : Int), (0 : Nat), (none : Option Char))))]
        0 0 (0, -1, (-1, 0, none)) (by omega)
        (by rw [lookup_singleton]; simp) (Nat.le_refl 0) (by omega)
      have hfold : (text.enum.foldl (fun best ic =>
          dp_round (position_options ic.2 p subs ad) ic.1 me best)
          [(0, ((0 : Nat), (-1 : Int), ((-1 : Int), (0 : Nat), (none : Option Char))))])
          = dp_table text p subs ad me := rfl
      rw [hfold] at he'
      have hkey : (0 + (sel.map (fun x => x.2.1)).sum) % 9
          = target_residue (energy_total text p) target := by
        rw [Nat.zero_add]
        exact hsum
      rw [hkey, he] at he'
      have hee : e = e' := Option.some.inj he'
      have hc : e.1 ≤ sel.length := by
        rw [hee]
        simpa using hle'
      have hme : e.1 ≤ me := (hinv.2.2 _ _ he).2.1
      have hlenr := dp_reconstruct_len (dp_table text p subs ad me) me hinv
        e.1 (target_residue (energy_total text p) target) e (me + 2) he
        (Nat.le_refl _) (by omega)
      rw [hops, List.length_reverse]
      omega

/-- C3 witness: at text `"ABC"`, target 1 under the default principle the
attunement planner returns a one-insertion plan realizing the delta; at
text `"."`, target 5 with substitutions `{'.': [':']}` the substitution
planner's one-op plan is no larger than the concrete one-edit selection
substituting `':'` at position 0. -/
theorem C3_witness :
    ReachesIn ((attunement_allowed defaultPrinciple none).map (fun se => se.2 % 9))
      ((([('?', 1)] : List (Char × Nat)).map Prod.snd).sum)
      (target_residue (energy_total ['A', 'B', 'C'] defaultPrinciple) 1)
    ∧ ([(⟨"sub", 0, some ':', 1⟩ : EditOp)] : List EditOp).length
        ≤ ([((0 : Nat), (4 : Nat), some ':')] : List (Nat × Nat × Option Char)).length := by
  constructor
  · exact ((C3_minimality ['A', 'B', 'C'] 1 defaultPrinciple).1 none "append" 64
      ⟨"append", 1, [('?', 1)], 6, 6, 10, 1⟩ rfl).1
  · exact (C3_minimality ['.'] 5 defaultPrinciple).2 (some [('.', [':'])]) false none 8
      ⟨"edit", 5, [⟨"sub", 0, some ':', 1⟩], 1, 1, 5, 5⟩ rfl rfl
      [((0 : Nat), (4 : Nat), some ':')]
      (SelOver.take (0, '.') 4 (some ':') [] [] (by decide) SelOver.nil)
      rfl (by decide)

end Gdk9
